import Mathlib

/-!
Shallow embedding of the `counter` Go package (counter.go): the accumulator
and the sliding-window counter, with their Advance / Revoke / Radvance /
Count / Zero / Dump / Load operations.

Modelling conventions:
* Go `int64` values are modelled as unbounded `Int` (overflow of the summed
  count is declared out of scope by the package design).
* Go `/` and `%` on integers truncate toward zero; they are modelled by
  `Int.tdiv` and `Int.tmod`.
* The lock / no-lock parameterisation only guards the shared state; every
  public operation holds the lock for its whole body, so the operations are
  modelled as pure state transformers.
* The single floating-point expression in `calculate`
  (`int64(float64(expired) * percent)`) and the `segs` rounding in `load`
  are modelled with exact integer arithmetic; the theorems that touch them
  only ever compare the expression on identical inputs or use the branch
  that bypasses it.
-/

/-- Go integer division: truncates toward zero, like Go's `/` on `int64`. -/
def goDiv (a b : Int) : Int := Int.tdiv a b

/-- Go integer remainder: takes the dividend's sign, like Go's `%` on `int64`. -/
def goMod (a b : Int) : Int := Int.tmod a b

/-- Physical index of logical slot `i` in the circular buffer: Go's `i % C`
turned into a list index.  Every use in the source has `0 ≤ i < ` some bound
with `0 < C`. -/
def idx (i C : Int) : Nat := (goMod i C).toNat

/-- Read a slot, Go's `c.slots[j]`.  Out-of-range reads (never performed by
the source) default to 0. -/
def getSlot (slots : List Int) (j : Nat) : Int := slots.getD j 0

/-- State of `slidingWindow` (counter.go): anchor `start`, slot width `step`,
the circular buffer `slots` (`slotCount+1` entries), the cached sum `count`,
and the timestamp `now` of the most recent applied event. -/
structure SlidingWindow where
  start : Int
  step : Int
  slots : List Int
  count : Int
  now : Int
deriving DecidableEq, Repr

/-- The expiring loop of `advance` (counter.go, "other" path):
`for i := current+1; i <= next; i++ { count -= slots[i%C]; slots[i%C] = 0 }`,
run here for `n` iterations starting at logical index `i`. -/
def expireLoop (slots : List Int) (count i : Int) (n : Nat) (C : Int) :
    List Int × Int :=
  match n with
  | 0 => (slots, count)
  | Nat.succ m =>
      expireLoop (slots.set (idx i C) 0) (count - getSlot slots (idx i C))
        (i + 1) m C

/-- `(*slidingWindow).advance` from counter.go. -/
def SlidingWindow.advance (c : SlidingWindow) (now delta : Int) : SlidingWindow :=
  let C : Int := c.slots.length
  let current0 := goDiv (c.now - c.start) c.step
  let current := if current0 < 0 then 0 else current0
  let next0 := goDiv (now - c.start) c.step
  let next := if next0 < current then current else next0
  if next = current then
    -- fast path
    { c with
      slots := c.slots.set (idx next C) (getSlot c.slots (idx next C) + delta),
      count := c.count + delta, now := now }
  else if C ≤ next - current then
    -- quick reset
    { c with
      slots := (List.replicate c.slots.length 0).set (idx next C) delta,
      count := delta, now := now }
  else
    -- other
    let z := expireLoop c.slots c.count (current + 1) (next - current).toNat C
    { c with
      slots := z.1.set (idx next C) (getSlot z.1 (idx next C) + delta),
      count := z.2 + delta, now := now }

/-- `(*slidingWindow).revoke` from counter.go. -/
def SlidingWindow.revoke (c : SlidingWindow) (hist delta : Int) : SlidingWindow :=
  let C : Int := c.slots.length
  let current0 := goDiv (c.now - c.start) c.step
  let current := if current0 < 0 then 0 else current0
  let prev := goDiv (hist - c.start) c.step
  if 0 ≤ prev ∧ 0 ≤ current - prev ∧ current - prev < C then
    let old := getSlot c.slots (idx prev C)
    let reduce := min delta old
    { c with slots := c.slots.set (idx prev C) (old - reduce),
             count := c.count - reduce }
  else c

/-- `(*slidingWindow).calculate` from counter.go.  The fractional decay
`int64(float64(expired) * (float64((now-start)%step) / float64(step)))` is
modelled by the exact truncated quotient `(expired * ((now-start)%step)) / step`;
theorems below only compare this expression on identical inputs or use the
`current < 0` branch which performs no floating-point work. -/
def SlidingWindow.calculate (c : SlidingWindow) : Int :=
  let C : Int := c.slots.length
  let current := goDiv (c.now - c.start) c.step
  if current < 0 then c.count
  else
    let expired := getSlot c.slots (idx (current + 1) C)
    c.count - goDiv (expired * goMod (c.now - c.start) c.step) c.step

/-- `(*slidingWindow).Zero` from counter.go: clears the slots and the cached
sum; `start` and `now` are untouched. -/
def SlidingWindow.zeroOp (c : SlidingWindow) : SlidingWindow :=
  { c with slots := List.replicate c.slots.length 0, count := 0 }

/-- Public `Advance`: mutate, then return the decayed count with the new state. -/
def SlidingWindow.advanceOp (c : SlidingWindow) (now delta : Int) :
    Int × SlidingWindow :=
  let c1 := c.advance now delta
  (c1.calculate, c1)

/-- Public `Revoke`: mutate, then return the decayed count with the new state. -/
def SlidingWindow.revokeOp (c : SlidingWindow) (hist delta : Int) :
    Int × SlidingWindow :=
  let c1 := c.revoke hist delta
  (c1.calculate, c1)

/-- Public `Radvance`: revoke, then advance, then return the decayed count. -/
def SlidingWindow.radvanceOp (c : SlidingWindow) (now hist delta : Int) :
    Int × SlidingWindow :=
  let c1 := (c.revoke hist delta).advance now delta
  (c1.calculate, c1)

/-- Public `Count`: the decayed count, no mutation. -/
def SlidingWindow.countOp (c : SlidingWindow) : Int := c.calculate

/-- `(*slidingWindow).Dump` from counter.go: returns
`(start + begin*step, now, deltas, step)` where `deltas` lists the slots from
logical index `begin` through `current`. -/
def SlidingWindow.dump (c : SlidingWindow) : Int × Int × List Int × Int :=
  let C : Int := c.slots.length
  let current0 := goDiv (c.now - c.start) c.step
  let current := if current0 < 0 then 0 else current0
  let bgn := if C ≤ current then current - (C - 1) else 0
  let ds := (List.range ((current - bgn).toNat + 1)).map
      (fun (k : Nat) => getSlot c.slots (idx (bgn + (k : Int)) C))
  (c.start + bgn * c.step, c.now, ds, c.step)

/-- `newSlidingWindow(start, window, slots)` from counter.go:
`step = window / slots`, buffer of `slots+1` zeroes, `now = start`. -/
def mkSlidingWindow (start window : Int) (slotCount : Nat) : SlidingWindow :=
  { start := start, step := goDiv window (slotCount : Int),
    slots := List.replicate (slotCount + 1) 0, count := 0, now := start }

/-- `segs := int64(math.Max(math.Round(float64(deltaStep)/float64(step)), 1.0))`
from `load`, modelled with exact arithmetic (round half away from zero for a
nonnegative ratio).  The theorems below only instantiate it at
`deltaStep = step`, where it is exactly 1. -/
def segsOf (dStep step : Int) : Int := max (Int.fdiv (2 * dStep + step) (2 * step)) 1

/-- Inner `for j := 0; j < segs; j++` loop of `load` (counter.go), acting on
the state `(counter, remain, now)`; `q = delta/segs`, `dq = deltaStep/segs`. -/
def loadInner (endT q dq : Int) :
    Nat → SlidingWindow × Int × Int → SlidingWindow × Int × Int
  | 0, st => st
  | Nat.succ m, (c, remain, nw) =>
      if endT ≤ nw then (c, remain, endT)
      else loadInner endT q dq m (c.advance nw q, remain - q, nw + dq)

/-- One iteration of the outer `load` loop: replay snapshot slot `i`. -/
def loadOne (c : SlidingWindow) (startT endT dStep segs : Int) (i : Nat)
    (delta : Int) : SlidingWindow :=
  let st := loadInner endT (goDiv delta segs) (goDiv dStep segs) segs.toNat
      (c, delta, startT + (i : Int) * dStep)
  let nw := if endT ≤ st.2.2 then endT else st.2.2
  st.1.advance nw st.2.1

/-- Outer `for i := 0; i < len(deltas); i++` loop of `load`, fuel-indexed
(`load` calls it with fuel `deltas.length` and `i = 0`, so it runs once per
snapshot slot). -/
def loadFrom (startT endT dStep segs : Int) (deltas : List Int) :
    Nat → Nat → SlidingWindow → SlidingWindow
  | 0, _, c => c
  | Nat.succ m, i, c =>
      if h : i < deltas.length then
        loadFrom startT endT dStep segs deltas m (i + 1)
          (loadOne c startT endT dStep segs i (deltas.get ⟨i, h⟩))
      else c

/-- `(*slidingWindow).load` from counter.go. -/
def SlidingWindow.load (c : SlidingWindow) (startT endT : Int) (deltas : List Int)
    (dStep : Int) : SlidingWindow :=
  loadFrom startT endT dStep (segsOf dStep c.step) deltas deltas.length 0 c

/-- `LoadSlidingWindow` from counter.go: build a fresh counter and replay the
snapshot into it. -/
def loadSlidingWindow (start endT : Int) (deltas : List Int)
    (dStep window : Int) (slotCount : Nat) : SlidingWindow :=
  (mkSlidingWindow start window slotCount).load start endT deltas dStep

/-- State of the `accumulator` (counter.go). -/
structure Accumulator where
  start : Int
  now : Int
  count : Int
deriving DecidableEq, Repr

/-- `(*accumulator).Advance`. -/
def Accumulator.advance (c : Accumulator) (now delta : Int) : Int × Accumulator :=
  (c.count + delta, { c with now := now, count := c.count + delta })

/-- `(*accumulator).Revoke`: the `hist` argument is accepted but unused. -/
def Accumulator.revoke (c : Accumulator) (hist delta : Int) : Int × Accumulator :=
  (c.count - delta, { c with count := c.count - delta })

/-- `(*accumulator).Radvance` from counter.go: stores `now` and returns the
count unchanged; both the revoke half and the delta are ignored. -/
def Accumulator.radvance (c : Accumulator) (now hist delta : Int) :
    Int × Accumulator :=
  (c.count, { c with now := now })

/-- Well-formedness established at construction: a positive slot width and a
buffer of at least two slots (`slotCount ≥ 1` plus the extra decay slot). -/
def WF (c : SlidingWindow) : Prop := 1 ≤ c.step ∧ 2 ≤ c.slots.length

/-- The clamped current slot index `max(0, (now-start)/step)` that `advance`,
`revoke` and `Dump` all compute. -/
def curIdx (c : SlidingWindow) : Int :=
  let current0 := goDiv (c.now - c.start) c.step
  if current0 < 0 then 0 else current0

/-- States reachable from `newSlidingWindow` through the public mutations.
`Radvance` is revoke-then-advance, and `load` only issues `Advance` calls, so
both are covered by the `adv`/`rev` closure. -/
inductive Reachable : SlidingWindow → Prop where
  | init (start window : Int) (n : Nat) (h1 : 1 ≤ n) (h2 : (n : Int) ≤ window) :
      Reachable (mkSlidingWindow start window n)
  | adv (c : SlidingWindow) (now delta : Int) :
      Reachable c → Reachable (c.advance now delta)
  | rev (c : SlidingWindow) (hist delta : Int) :
      Reachable c → Reachable (c.revoke hist delta)
  | zero (c : SlidingWindow) : Reachable c → Reachable c.zeroOp


/-! ### List infrastructure -/

theorem getD_set_self (l : List Int) (j : Nat) (v : Int) (h : j < l.length) :
    (l.set j v).getD j 0 = v := by
  simp [List.getD_eq_getElem?_getD, List.getElem?_set, h]

theorem getD_set_ne (l : List Int) (i j : Nat) (v : Int) (h : i ≠ j) :
    (l.set i v).getD j 0 = l.getD j 0 := by
  simp [List.getD_eq_getElem?_getD, List.getElem?_set, h]

theorem set_getD_self (l : List Int) (j : Nat) :
    l.set j (l.getD j 0) = l := by
  induction l generalizing j with
  | nil => simp
  | cons a t ih =>
    cases j with
    | zero => simp [List.set]
    | succ n =>
      simp only [List.set, List.getD_cons_succ, List.cons.injEq, true_and]
      exact ih n

theorem sum_set_eq (l : List Int) (j : Nat) (v : Int) (h : j < l.length) :
    (l.set j v).sum = l.sum + v - l.getD j 0 := by
  induction l generalizing j with
  | nil => simp at h
  | cons a t ih =>
    cases j with
    | zero => simp [List.set]; ring
    | succ m =>
      simp only [List.set, List.sum_cons, List.getD_cons_succ]
      have hm : m < t.length := by simpa using h
      rw [ih m hm]; ring

theorem sum_set_zero (l : List Int) (j : Nat) :
    (l.set j 0).sum = l.sum - l.getD j 0 := by
  by_cases h : j < l.length
  · rw [sum_set_eq l j 0 h]; ring
  · rw [List.set_eq_of_length_le (Nat.le_of_not_lt h),
      List.getD_eq_default _ _ (Nat.le_of_not_lt h)]; ring

theorem getD_replicate (n j : Nat) : (List.replicate n (0 : Int)).getD j 0 = 0 := by
  rw [List.getD_eq_getElem?_getD, List.getElem?_replicate]
  split <;> rfl

theorem sum_getD_range (l : List Int) :
    ((List.range l.length).map (fun a => l.getD a 0)).sum = l.sum := by
  induction l with
  | nil => simp
  | cons a t ih =>
    have : (a :: t).length = t.length + 1 := rfl
    rw [this, List.range_succ_eq_map]
    simp only [List.map_cons, List.map_map, List.sum_cons]
    have : (List.map ((fun a_1 => (a :: t).getD a_1 0) ∘ Nat.succ) (List.range t.length))
        = List.map (fun a_1 => t.getD a_1 0) (List.range t.length) := by
      apply List.map_congr_left; intro x _; rfl
    rw [this, ih]; rfl

theorem sum_rot (f : Nat → Int) (n b : Nat) :
    ((List.range n).map (fun a => f ((b + a) % n))).sum
      = ((List.range n).map (fun a => f (a % n))).sum := by
  induction b with
  | zero => simp
  | succ m ih =>
    rw [← ih]; clear ih
    cases n with
    | zero => simp
    | succ k =>
      have h1 : ((List.range (k+1)).map (fun a => f ((m + 1 + a) % (k + 1)))).sum
          = ((List.range k).map (fun a => f ((m + 1 + a) % (k + 1)))).sum
            + f ((m + 1 + k) % (k + 1)) := by
        rw [List.range_succ]; simp
      have h2 : ((List.range (k+1)).map (fun a => f ((m + a) % (k + 1)))).sum
          = f ((m + 0) % (k + 1))
            + ((List.range k).map (fun a => f ((m + (a + 1)) % (k + 1)))).sum := by
        rw [List.range_succ_eq_map]
        simp only [List.map_cons, List.map_map, List.sum_cons]
        rfl
      rw [h1, h2]
      have h3 : (List.range k).map (fun a => f ((m + 1 + a) % (k + 1)))
          = (List.range k).map (fun a => f ((m + (a + 1)) % (k + 1))) := by
        apply List.map_congr_left; intro x _
        have hx : m + 1 + x = m + (x + 1) := by ring
        rw [hx]
      have h4 : (m + 1 + k) % (k + 1) = (m + 0) % (k + 1) := by
        have hk : m + 1 + k = m + (k + 1) := by ring
        rw [hk, Nat.add_mod_right, Nat.add_zero]
        rfl
      rw [h3, h4]
      ring

theorem expireLoop_length (n : Nat) :
    ∀ (slots : List Int) (count i C : Int),
      (expireLoop slots count i n C).1.length = slots.length := by
  induction n with
  | zero => intro slots count i C; rfl
  | succ m ih =>
    intro slots count i C
    rw [expireLoop, ih]
    exact List.length_set ..

theorem expireLoop_inv (n : Nat) :
    ∀ (slots : List Int) (count i C : Int),
      (expireLoop slots count i n C).2 - (expireLoop slots count i n C).1.sum
        = count - slots.sum := by
  induction n with
  | zero => intro slots count i C; rfl
  | succ m ih =>
    intro slots count i C
    rw [expireLoop, ih]
    rw [sum_set_zero]
    simp only [getSlot]
    ring

/-! ### Go division facts -/

theorem goDiv_nonneg_eq (a b : Int) (ha : 0 ≤ a) (hb : 0 ≤ b) :
    goDiv a b = a / b := Int.tdiv_eq_ediv ha hb

theorem goMod_nonneg_eq (a b : Int) (ha : 0 ≤ a) (hb : 0 ≤ b) :
    goMod a b = a % b := Int.tmod_eq_emod ha hb

theorem goDiv_neg_of_le (a b : Int) (hb : 0 < b) (h : a ≤ -b) : goDiv a b < 0 := by
  have h1 : goDiv a b = -((-a).tdiv b) := by
    unfold goDiv
    rw [← Int.neg_tdiv, neg_neg]
  have h2 : (1 : Int) ≤ (-a).tdiv b := by
    rw [Int.tdiv_eq_ediv (by omega) hb.le]
    rw [Int.le_ediv_iff_mul_le hb]
    omega
  omega

theorem goDiv_nonneg (a b : Int) (ha : 0 ≤ a) (hb : 0 ≤ b) : 0 ≤ goDiv a b := by
  rw [goDiv_nonneg_eq a b ha hb]
  exact Int.ediv_nonneg ha hb

theorem goDiv_le_goDiv (a b c : Int) (hc : 0 < c) (ha : 0 ≤ a) (h : a ≤ b) :
    goDiv a c ≤ goDiv b c := by
  rw [goDiv_nonneg_eq a c ha hc.le, goDiv_nonneg_eq b c (by omega) hc.le]
  exact Int.ediv_le_ediv hc h

theorem goDiv_add_goMod (a b : Int) : b * goDiv a b + goMod a b = a := by
  unfold goDiv goMod
  exact Int.tdiv_add_tmod a b

theorem goMod_nonneg_lt (a b : Int) (ha : 0 ≤ a) (hb : 0 < b) :
    0 ≤ goMod a b ∧ goMod a b < b := by
  rw [goMod_nonneg_eq a b ha hb.le]
  exact ⟨Int.emod_nonneg a (ne_of_gt hb), Int.emod_lt_of_pos a hb⟩

theorem goDiv_nonneg_bounds (a b : Int) (ha : 0 ≤ a) (hb : 0 < b) :
    b * goDiv a b ≤ a ∧ a < b * (goDiv a b + 1) := by
  have h1 := goDiv_add_goMod a b
  have h2 := goMod_nonneg_lt a b ha hb
  constructor
  · linarith [h2.1]
  · have : b * (goDiv a b + 1) = b * goDiv a b + b := by ring
    rw [this]
    linarith [h2.2]

theorem goDiv_mul_add (k b r : Int) (hb : 0 < b) (hk : 0 ≤ k) (hr : 0 ≤ r)
    (hrb : r < b) : goDiv (k * b + r) b = k := by
  have h0 : 0 ≤ k * b + r := by positivity
  rw [goDiv_nonneg_eq _ _ h0 hb.le]
  have h : k * b + r = r + k * b := by ring
  rw [h, Int.add_mul_ediv_right r k (ne_of_gt hb), Int.ediv_eq_zero_of_lt hr hrb,
    zero_add]

theorem goMod_mul_add (k b r : Int) (hb : 0 < b) (hk : 0 ≤ k) (hr : 0 ≤ r)
    (hrb : r < b) : goMod (k * b + r) b = r := by
  have h0 : 0 ≤ k * b + r := by positivity
  rw [goMod_nonneg_eq _ _ h0 hb.le]
  have h : k * b + r = r + k * b := by ring
  rw [h, Int.add_mul_emod_self, Int.emod_eq_of_lt hr hrb]

theorem idx_lt_toNat (i C : Int) (hi : 0 ≤ i) (hC : 0 < C) : idx i C < C.toNat := by
  unfold idx
  rw [goMod_nonneg_eq _ _ hi hC.le]
  have h1 := Int.emod_nonneg i (ne_of_gt hC)
  have h2 := Int.emod_lt_of_pos i hC
  omega

theorem idx_add_self (i C : Int) (hi : 0 ≤ i) (hC : 0 < C) :
    idx (i + C) C = idx i C := by
  unfold idx
  rw [goMod_nonneg_eq _ _ (by omega) hC.le, goMod_nonneg_eq _ _ hi hC.le]
  have h : i + C = i + 1 * C := by ring
  rw [h, Int.add_mul_emod_self]

/-! ### Structural facts about the operations -/

theorem advance_start (c : SlidingWindow) (now delta : Int) :
    (c.advance now delta).start = c.start := by
  simp only [SlidingWindow.advance]
  repeat' split
  all_goals rfl

theorem advance_step (c : SlidingWindow) (now delta : Int) :
    (c.advance now delta).step = c.step := by
  simp only [SlidingWindow.advance]
  repeat' split
  all_goals rfl

theorem advance_now (c : SlidingWindow) (now delta : Int) :
    (c.advance now delta).now = now := by
  simp only [SlidingWindow.advance]
  repeat' split
  all_goals rfl

theorem advance_length (c : SlidingWindow) (now delta : Int) :
    (c.advance now delta).slots.length = c.slots.length := by
  simp only [SlidingWindow.advance]
  repeat' split
  all_goals simp [expireLoop_length]

theorem revoke_start (c : SlidingWindow) (hist delta : Int) :
    (c.revoke hist delta).start = c.start := by
  simp only [SlidingWindow.revoke]
  repeat' split
  all_goals rfl

theorem revoke_step (c : SlidingWindow) (hist delta : Int) :
    (c.revoke hist delta).step = c.step := by
  simp only [SlidingWindow.revoke]
  repeat' split
  all_goals rfl

theorem revoke_now (c : SlidingWindow) (hist delta : Int) :
    (c.revoke hist delta).now = c.now := by
  simp only [SlidingWindow.revoke]
  repeat' split
  all_goals rfl

theorem revoke_length (c : SlidingWindow) (hist delta : Int) :
    (c.revoke hist delta).slots.length = c.slots.length := by
  simp only [SlidingWindow.revoke]
  repeat' split
  all_goals simp

theorem zeroOp_fields (c : SlidingWindow) :
    c.zeroOp.start = c.start ∧ c.zeroOp.step = c.step ∧ c.zeroOp.now = c.now ∧
    c.zeroOp.slots.length = c.slots.length ∧ c.zeroOp.count = 0 := by
  simp [SlidingWindow.zeroOp]

theorem WF_advance (c : SlidingWindow) (now delta : Int) (h : WF c) :
    WF (c.advance now delta) := by
  obtain ⟨h1, h2⟩ := h
  exact ⟨by rw [advance_step]; exact h1, by rw [advance_length]; exact h2⟩

theorem WF_revoke (c : SlidingWindow) (hist delta : Int) (h : WF c) :
    WF (c.revoke hist delta) := by
  obtain ⟨h1, h2⟩ := h
  exact ⟨by rw [revoke_step]; exact h1, by rw [revoke_length]; exact h2⟩

theorem WF_zero (c : SlidingWindow) (h : WF c) : WF c.zeroOp := by
  obtain ⟨h1, h2⟩ := h
  exact ⟨h1, by simpa [SlidingWindow.zeroOp] using h2⟩

theorem WF_mk (start window : Int) (n : Nat) (h1 : 1 ≤ n) (h2 : (n : Int) ≤ window) :
    WF (mkSlidingWindow start window n) := by
  constructor
  · show 1 ≤ goDiv window (n : Int)
    have hn : (0 : Int) < (n : Int) := by exact_mod_cast h1
    rw [goDiv_nonneg_eq window (n : Int) (by omega) hn.le]
    rw [Int.le_ediv_iff_mul_le hn]
    omega
  · show 2 ≤ (List.replicate (n + 1) (0 : Int)).length
    simp
    omega

theorem reachable_WF (c : SlidingWindow) (h : Reachable c) : WF c := by
  induction h with
  | init start window n h1 h2 => exact WF_mk start window n h1 h2
  | adv c now delta _ ih => exact WF_advance c now delta ih
  | rev c hist delta _ ih => exact WF_revoke c hist delta ih
  | zero c _ ih => exact WF_zero c ih

/-! ### Branch characterisations of advance / revoke -/

/-- The clamped target slot index that `advance` computes from its argument. -/
def nxtIdx (c : SlidingWindow) (now : Int) : Int :=
  let next0 := goDiv (now - c.start) c.step
  if next0 < curIdx c then curIdx c else next0

theorem curIdx_nonneg (c : SlidingWindow) : 0 ≤ curIdx c := by
  simp only [curIdx]
  split <;> omega

theorem curIdx_le_nxtIdx (c : SlidingWindow) (now : Int) : curIdx c ≤ nxtIdx c now := by
  simp only [nxtIdx]
  split <;> omega

theorem nxtIdx_nonneg (c : SlidingWindow) (now : Int) : 0 ≤ nxtIdx c now :=
  le_trans (curIdx_nonneg c) (curIdx_le_nxtIdx c now)

theorem advance_eq (c : SlidingWindow) (now delta : Int) :
    c.advance now delta =
      if nxtIdx c now = curIdx c then
        { c with
          slots := c.slots.set (idx (nxtIdx c now) (c.slots.length : Int))
            (getSlot c.slots (idx (nxtIdx c now) (c.slots.length : Int)) + delta),
          count := c.count + delta, now := now }
      else if (c.slots.length : Int) ≤ nxtIdx c now - curIdx c then
        { c with
          slots := (List.replicate c.slots.length 0).set
            (idx (nxtIdx c now) (c.slots.length : Int)) delta,
          count := delta, now := now }
      else
        { c with
          slots := (expireLoop c.slots c.count (curIdx c + 1)
              (nxtIdx c now - curIdx c).toNat (c.slots.length : Int)).1.set
            (idx (nxtIdx c now) (c.slots.length : Int))
            (getSlot (expireLoop c.slots c.count (curIdx c + 1)
                (nxtIdx c now - curIdx c).toNat (c.slots.length : Int)).1
              (idx (nxtIdx c now) (c.slots.length : Int)) + delta),
          count := (expireLoop c.slots c.count (curIdx c + 1)
              (nxtIdx c now - curIdx c).toNat (c.slots.length : Int)).2 + delta,
          now := now } := rfl

theorem revoke_eq (c : SlidingWindow) (hist delta : Int) :
    c.revoke hist delta =
      if 0 ≤ goDiv (hist - c.start) c.step ∧
          0 ≤ curIdx c - goDiv (hist - c.start) c.step ∧
          curIdx c - goDiv (hist - c.start) c.step < (c.slots.length : Int) then
        { c with
          slots := c.slots.set (idx (goDiv (hist - c.start) c.step) (c.slots.length : Int))
            (getSlot c.slots (idx (goDiv (hist - c.start) c.step) (c.slots.length : Int))
              - min delta (getSlot c.slots
                  (idx (goDiv (hist - c.start) c.step) (c.slots.length : Int)))),
          count := c.count - min delta (getSlot c.slots
              (idx (goDiv (hist - c.start) c.step) (c.slots.length : Int))) }
      else c := rfl

/-! ### The count = sum-of-slots invariant -/

theorem advance_count_sum (c : SlidingWindow) (now delta : Int)
    (hlen : 1 ≤ c.slots.length) (h : c.count = c.slots.sum) :
    (c.advance now delta).count = (c.advance now delta).slots.sum := by
  have hC : (0 : Int) < (c.slots.length : Int) := by exact_mod_cast hlen
  have hnn := nxtIdx_nonneg c now
  have hidx : idx (nxtIdx c now) (c.slots.length : Int) < c.slots.length := by
    have := idx_lt_toNat (nxtIdx c now) (c.slots.length : Int) hnn hC
    simpa using this
  rw [advance_eq]
  split_ifs with h1 h2
  · show c.count + delta = (c.slots.set _ _).sum
    rw [sum_set_eq _ _ _ hidx, h]
    unfold getSlot
    ring
  · show delta = ((List.replicate c.slots.length 0).set _ delta).sum
    rw [sum_set_eq _ _ _ (by simpa using hidx), List.sum_replicate, getD_replicate]
    simp
  · have hz := expireLoop_inv (nxtIdx c now - curIdx c).toNat c.slots c.count
      (curIdx c + 1) (c.slots.length : Int)
    have hzl := expireLoop_length (nxtIdx c now - curIdx c).toNat c.slots c.count
      (curIdx c + 1) (c.slots.length : Int)
    show (expireLoop _ _ _ _ _).2 + delta = ((expireLoop _ _ _ _ _).1.set _ _).sum
    rw [sum_set_eq _ _ _ (by rw [hzl]; exact hidx)]
    unfold getSlot
    have h0 : c.count - c.slots.sum = 0 := by rw [h]; ring
    linarith [hz, h0]

theorem revoke_count_sum (c : SlidingWindow) (hist delta : Int)
    (hlen : 1 ≤ c.slots.length) (h : c.count = c.slots.sum) :
    (c.revoke hist delta).count = (c.revoke hist delta).slots.sum := by
  have hC : (0 : Int) < (c.slots.length : Int) := by exact_mod_cast hlen
  rw [revoke_eq]
  split_ifs with h1
  · obtain ⟨hp, _, _⟩ := h1
    have hidx : idx (goDiv (hist - c.start) c.step) (c.slots.length : Int)
        < c.slots.length := by
      have := idx_lt_toNat (goDiv (hist - c.start) c.step) (c.slots.length : Int) hp hC
      simpa using this
    show c.count - _ = (c.slots.set _ _).sum
    rw [sum_set_eq _ _ _ hidx, h]
    unfold getSlot
    ring
  · exact h

theorem zero_count_sum (c : SlidingWindow) :
    c.zeroOp.count = c.zeroOp.slots.sum := by
  simp [SlidingWindow.zeroOp, List.sum_replicate]

/-- The master invariant: every reachable sliding-window state has its cached
count equal to the sum of all slots. -/
theorem reachable_count_sum (c : SlidingWindow) (h : Reachable c) :
    c.count = c.slots.sum := by
  induction h with
  | init start window n h1 h2 => simp [mkSlidingWindow, List.sum_replicate]
  | adv c now delta hr ih =>
      exact advance_count_sum c now delta (by have := (reachable_WF c hr).2; omega) ih
  | rev c hist delta hr ih =>
      exact revoke_count_sum c hist delta (by have := (reachable_WF c hr).2; omega) ih
  | zero c _ _ => exact zero_count_sum c

/-! ### Load produces reachable states (it only issues Advance calls) -/

theorem reachable_loadInner (endT q dq : Int) (n : Nat)
    (st : SlidingWindow × Int × Int) (h : Reachable st.1) :
    Reachable (loadInner endT q dq n st).1 := by
  induction n generalizing st with
  | zero => exact h
  | succ m ih =>
    obtain ⟨c, remain, nw⟩ := st
    rw [loadInner]
    split
    · exact h
    · exact ih _ (Reachable.adv c nw q h)

theorem reachable_loadOne (c : SlidingWindow) (startT endT dStep segs : Int)
    (i : Nat) (delta : Int) (h : Reachable c) :
    Reachable (loadOne c startT endT dStep segs i delta) := by
  simp only [loadOne]
  exact Reachable.adv _ _ _ (reachable_loadInner _ _ _ _ _ h)

theorem reachable_loadFrom (startT endT dStep segs : Int) (deltas : List Int)
    (n i : Nat) (c : SlidingWindow) (h : Reachable c) :
    Reachable (loadFrom startT endT dStep segs deltas n i c) := by
  induction n generalizing i c with
  | zero => exact h
  | succ m ih =>
    rw [loadFrom]
    split
    · exact ih _ _ (reachable_loadOne _ _ _ _ _ _ _ h)
    · exact h

theorem reachable_load (c : SlidingWindow) (startT endT : Int) (deltas : List Int)
    (dStep : Int) (h : Reachable c) : Reachable (c.load startT endT deltas dStep) := by
  unfold SlidingWindow.load
  exact reachable_loadFrom _ _ _ _ _ _ _ _ h

theorem reachable_loadSlidingWindow (start endT : Int) (deltas : List Int)
    (dStep window : Int) (n : Nat) (h1 : 1 ≤ n) (h2 : (n : Int) ≤ window) :
    Reachable (loadSlidingWindow start endT deltas dStep window n) := by
  unfold loadSlidingWindow
  exact reachable_load _ _ _ _ _ (Reachable.init start window n h1 h2)

/-! ### Claim C1 -/

/-- C1: for every reachable sliding-window counter state the cached `count`
equals the sum of all slot values when any of Advance, Revoke, Radvance, Zero
or Load returns. -/
theorem C1_count_equals_sum_after_mutations
    (c : SlidingWindow) (now hist delta s e dS window : Int) (ds : List Int)
    (n : Nat) (hc : Reachable c) (hn1 : 1 ≤ n) (hn2 : (n : Int) ≤ window) :
    (c.advance now delta).count = (c.advance now delta).slots.sum ∧
    (c.revoke hist delta).count = (c.revoke hist delta).slots.sum ∧
    ((c.revoke hist delta).advance now delta).count
      = ((c.revoke hist delta).advance now delta).slots.sum ∧
    c.zeroOp.count = c.zeroOp.slots.sum ∧
    (loadSlidingWindow s e ds dS window n).count
      = (loadSlidingWindow s e ds dS window n).slots.sum :=
  ⟨reachable_count_sum _ (Reachable.adv _ _ _ hc),
   reachable_count_sum _ (Reachable.rev _ _ _ hc),
   reachable_count_sum _ (Reachable.adv _ _ _ (Reachable.rev _ _ _ hc)),
   reachable_count_sum _ (Reachable.zero _ hc),
   reachable_count_sum _ (reachable_loadSlidingWindow s e ds dS window n hn1 hn2)⟩

/-- Witness for C1 at a concrete reachable counter. -/
theorem C1_count_equals_sum_after_mutations_witness :
    ((mkSlidingWindow 0 3 3).advance 5 7).count
      = ((mkSlidingWindow 0 3 3).advance 5 7).slots.sum ∧
    ((mkSlidingWindow 0 3 3).revoke 1 2).count
      = ((mkSlidingWindow 0 3 3).revoke 1 2).slots.sum ∧
    (((mkSlidingWindow 0 3 3).revoke 1 2).advance 5 7).count
      = (((mkSlidingWindow 0 3 3).revoke 1 2).advance 5 7).slots.sum ∧
    (mkSlidingWindow 0 3 3).zeroOp.count
      = (mkSlidingWindow 0 3 3).zeroOp.slots.sum ∧
    (loadSlidingWindow 0 4 [1, 2] 1 3 3).count
      = (loadSlidingWindow 0 4 [1, 2] 1 3 3).slots.sum :=
  C1_count_equals_sum_after_mutations (mkSlidingWindow 0 3 3) 5 1 7 0 4 1 3
    [1, 2] 3 (Reachable.init 0 3 3 (by decide) (by decide)) (by decide) (by decide)

/-! ### Claim C9 -/

/-- C9: the accumulator's Radvance uniformly realises allowed behaviour (a):
for every state and all arguments it is a pure no-op on `count` and returns
the current count unchanged (only the advisory `now` timestamp is updated). -/
theorem C9_accumulator_radvance_pure_noop (c : Accumulator) (now hist delta : Int) :
    (c.radvance now hist delta).1 = c.count ∧
    (c.radvance now hist delta).2.count = c.count ∧
    (c.radvance now hist delta).2.start = c.start ∧
    (c.radvance now hist delta).2.now = now :=
  ⟨rfl, rfl, rfl, rfl⟩

/-! ### Claim C4 -/

/-- C4 counterexample: from the reachable state obtained by
`Advance(5, 0)` on a fresh counter (stored now = 5), the call `Advance(2, 0)`
stores the earlier timestamp 2 verbatim, so the stored `now` decreases. -/
theorem C4_counterexample :
    Reachable ((mkSlidingWindow 0 3 3).advance 5 0) ∧
    ((mkSlidingWindow 0 3 3).advance 5 0).now = 5 ∧
    (((mkSlidingWindow 0 3 3).advance 5 0).advance 2 0).now = 2 ∧
    (2 : Int) < 5 :=
  ⟨Reachable.adv _ _ _ (Reachable.init 0 3 3 (by decide) (by decide)),
   by decide, by decide, by decide⟩

/-- C4 amended: `advance` stores its argument timestamp verbatim (so the
stored `now` decreases exactly when the argument is earlier than the stored
`now`); Revoke and Zero never change the stored `now`; with a nondecreasing
argument timestamp the stored `now` does not decrease. -/
theorem C4_now_stored_verbatim (c : SlidingWindow) (now hist delta : Int) :
    (c.advance now delta).now = now ∧
    (c.revoke hist delta).now = c.now ∧
    c.zeroOp.now = c.now ∧
    (c.now ≤ now → c.now ≤ (c.advance now delta).now) := by
  refine ⟨advance_now c now delta, revoke_now c hist delta, rfl, ?_⟩
  intro h
  rw [advance_now]
  exact h

/-- Witness for C4's amended statement at a concrete input. -/
theorem C4_now_stored_verbatim_witness :
    ((mkSlidingWindow 0 3 3).advance 5 1).now = 5 ∧
    (mkSlidingWindow 0 3 3).now ≤ ((mkSlidingWindow 0 3 3).advance 5 1).now :=
  ⟨(C4_now_stored_verbatim (mkSlidingWindow 0 3 3) 5 2 1).1,
   (C4_now_stored_verbatim (mkSlidingWindow 0 3 3) 5 2 1).2.2.2 (by decide)⟩

/-! ### Claim C10 -/

theorem calculate_raw (c : SlidingWindow)
    (h : goDiv (c.now - c.start) c.step < 0) : c.calculate = c.count := by
  simp only [SlidingWindow.calculate]
  rw [if_pos h]

theorem stored_backwards_div_neg (c : SlidingWindow) (hstep : 1 ≤ c.step)
    (h : c.now ≤ c.start - c.step) : goDiv (c.now - c.start) c.step < 0 :=
  goDiv_neg_of_le _ _ (by omega) (by omega)

/-- C10: when the stored `now` is at least one full step before `start` the
computed current slot index is negative and every count-returning operation
returns the raw cached count with no decay subtracted (for Advance/Radvance,
whose decay is computed from the newly stored argument timestamp, with an
argument in the same backwards regime); such states are reachable because the
advance fast path stores a backwards timestamp verbatim, as the concrete
reachable state in the last three conjuncts shows. -/
theorem C10_backwards_now_returns_raw_count (c : SlidingWindow)
    (now hist delta : Int) (hwf : WF c) (hstored : c.now ≤ c.start - c.step) :
    c.countOp = c.count ∧
    (c.revokeOp hist delta).1 = (c.revokeOp hist delta).2.count ∧
    (now ≤ c.start - c.step →
      (c.advanceOp now delta).1 = (c.advanceOp now delta).2.count ∧
      (c.radvanceOp now hist delta).1 = (c.radvanceOp now hist delta).2.count ∧
      (c.advanceOp now delta).2.now = now) ∧
    Reachable ((mkSlidingWindow 0 3 3).advance (-7) 1) ∧
    ((mkSlidingWindow 0 3 3).advance (-7) 1).now = -7 ∧
    ((mkSlidingWindow 0 3 3).advance (-7) 1).now
      ≤ ((mkSlidingWindow 0 3 3).advance (-7) 1).start
        - ((mkSlidingWindow 0 3 3).advance (-7) 1).step := by
  obtain ⟨hstep, hlen⟩ := hwf
  refine ⟨?_, ?_, ?_, ?_, ?_, ?_⟩
  · exact calculate_raw c (stored_backwards_div_neg c hstep hstored)
  · show (c.revoke hist delta).calculate = (c.revoke hist delta).count
    apply calculate_raw
    rw [revoke_now, revoke_start, revoke_step]
    exact stored_backwards_div_neg c hstep hstored
  · intro hnow
    refine ⟨?_, ?_, advance_now c now delta⟩
    · show (c.advance now delta).calculate = (c.advance now delta).count
      apply calculate_raw
      rw [advance_now, advance_start, advance_step]
      exact goDiv_neg_of_le _ _ (by omega) (by omega)
    · show ((c.revoke hist delta).advance now delta).calculate
        = ((c.revoke hist delta).advance now delta).count
      apply calculate_raw
      rw [advance_now, advance_start, advance_step, revoke_start, revoke_step]
      exact goDiv_neg_of_le _ _ (by omega) (by omega)
  · exact Reachable.adv _ _ _ (Reachable.init 0 3 3 (by decide) (by decide))
  · decide
  · decide

/-- Witness for C10 at a concrete backwards-time reachable state. -/
theorem C10_backwards_now_returns_raw_count_witness :
    ((mkSlidingWindow 0 3 3).advance (-7) 1).countOp
      = ((mkSlidingWindow 0 3 3).advance (-7) 1).count ∧
    (((mkSlidingWindow 0 3 3).advance (-7) 1).advanceOp (-9) 4).1
      = (((mkSlidingWindow 0 3 3).advance (-7) 1).advanceOp (-9) 4).2.count :=
  ⟨(C10_backwards_now_returns_raw_count ((mkSlidingWindow 0 3 3).advance (-7) 1)
      (-9) 2 4 (by constructor <;> decide) (by decide)).1,
   ((C10_backwards_now_returns_raw_count ((mkSlidingWindow 0 3 3).advance (-7) 1)
      (-9) 2 4 (by constructor <;> decide) (by decide)).2.2.1 (by decide)).1⟩

/-! ### Claim C5 -/

/-- C5: for an in-window Revoke (slot index of `hist` nonnegative and within
the circular buffer's reach of the current slot), the target slot becomes
`max(old - delta, 0)` — never negative; the amount removed from `count` is
`min(delta, old)`, which never exceeds what the slot held; and when `delta`
exceeds the slot's holding exactly that remainder is removed and the slot is
zeroed. -/
theorem C5_revoke_clamps_at_zero (c : SlidingWindow) (hist delta : Int)
    (hwf : WF c)
    (hp : 0 ≤ goDiv (hist - c.start) c.step)
    (hd0 : 0 ≤ curIdx c - goDiv (hist - c.start) c.step)
    (hd1 : curIdx c - goDiv (hist - c.start) c.step < (c.slots.length : Int)) :
    getSlot (c.revoke hist delta).slots
        (idx (goDiv (hist - c.start) c.step) (c.slots.length : Int))
      = max (getSlot c.slots
          (idx (goDiv (hist - c.start) c.step) (c.slots.length : Int)) - delta) 0 ∧
    0 ≤ getSlot (c.revoke hist delta).slots
        (idx (goDiv (hist - c.start) c.step) (c.slots.length : Int)) ∧
    (c.revoke hist delta).count
      = c.count - min delta (getSlot c.slots
          (idx (goDiv (hist - c.start) c.step) (c.slots.length : Int))) ∧
    min delta (getSlot c.slots
        (idx (goDiv (hist - c.start) c.step) (c.slots.length : Int)))
      ≤ getSlot c.slots
          (idx (goDiv (hist - c.start) c.step) (c.slots.length : Int)) ∧
    (getSlot c.slots
        (idx (goDiv (hist - c.start) c.step) (c.slots.length : Int)) < delta →
      (c.revoke hist delta).count
        = c.count - getSlot c.slots
            (idx (goDiv (hist - c.start) c.step) (c.slots.length : Int)) ∧
      getSlot (c.revoke hist delta).slots
          (idx (goDiv (hist - c.start) c.step) (c.slots.length : Int)) = 0) := by
  obtain ⟨hstep, hlen⟩ := hwf
  have hC : (0 : Int) < (c.slots.length : Int) := by
    have : 0 < c.slots.length := by omega
    exact_mod_cast this
  have hidx : idx (goDiv (hist - c.start) c.step) (c.slots.length : Int)
      < c.slots.length := by
    have := idx_lt_toNat (goDiv (hist - c.start) c.step) (c.slots.length : Int) hp hC
    simpa using this
  rw [revoke_eq, if_pos ⟨hp, hd0, hd1⟩]
  have hget : getSlot
      (c.slots.set (idx (goDiv (hist - c.start) c.step) (c.slots.length : Int))
        (getSlot c.slots (idx (goDiv (hist - c.start) c.step) (c.slots.length : Int))
          - min delta (getSlot c.slots
              (idx (goDiv (hist - c.start) c.step) (c.slots.length : Int)))))
      (idx (goDiv (hist - c.start) c.step) (c.slots.length : Int))
      = getSlot c.slots (idx (goDiv (hist - c.start) c.step) (c.slots.length : Int))
        - min delta (getSlot c.slots
            (idx (goDiv (hist - c.start) c.step) (c.slots.length : Int))) := by
    unfold getSlot
    exact getD_set_self _ _ _ hidx
  refine ⟨?_, ?_, rfl, ?_, ?_⟩
  · show getSlot _ _ = _
    rw [hget]
    rcases le_total delta (getSlot c.slots
        (idx (goDiv (hist - c.start) c.step) (c.slots.length : Int))) with h | h
    · rw [min_eq_left h, max_eq_left (by omega)]
    · rw [min_eq_right h, max_eq_right (by omega)]
      omega
  · show 0 ≤ getSlot _ _
    rw [hget]
    rcases le_total delta (getSlot c.slots
        (idx (goDiv (hist - c.start) c.step) (c.slots.length : Int))) with h | h
    · rw [min_eq_left h]; omega
    · rw [min_eq_right h]; omega
  · exact min_le_right _ _
  · intro hlt
    constructor
    · show c.count - _ = _
      rw [min_eq_right hlt.le]
    · show getSlot _ _ = 0
      rw [hget, min_eq_right hlt.le]
      omega

/-- Witness for C5 at a concrete reachable state (slot 0 holds 7, revoke 100). -/
theorem C5_revoke_clamps_at_zero_witness :
    0 ≤ goDiv (5 - ((mkSlidingWindow 0 20 2).advance 5 7).start)
        ((mkSlidingWindow 0 20 2).advance 5 7).step ∧
    (((mkSlidingWindow 0 20 2).advance 5 7).revoke 5 100).count
      = ((mkSlidingWindow 0 20 2).advance 5 7).count
        - min 100 (getSlot ((mkSlidingWindow 0 20 2).advance 5 7).slots
            (idx (goDiv (5 - ((mkSlidingWindow 0 20 2).advance 5 7).start)
                ((mkSlidingWindow 0 20 2).advance 5 7).step)
              (((mkSlidingWindow 0 20 2).advance 5 7).slots.length : Int))) :=
  ⟨by decide,
   (C5_revoke_clamps_at_zero ((mkSlidingWindow 0 20 2).advance 5 7) 5 100
      (by constructor <;> decide) (by decide) (by decide) (by decide)).2.2.1⟩

/-! ### Claim C6 -/

/-- C6 counterexample: in the reachable state with `start = 0`, `step = 10`,
`slotCount = 2` (window 20), slot 0 holding 7 and `now = 25`, the slot of
`hist = 5` has age `(current - prev) * step = 20`, exactly the window length —
yet `Revoke(5, 4)` is not a no-op: it drops `count` from 7 to 3.  This refutes
the claim that Revoke no-ops whenever the slot's age is at least the window
length. -/
theorem C6_counterexample :
    Reachable (((mkSlidingWindow 0 20 2).advance 5 7).advance 25 0) ∧
    (curIdx (((mkSlidingWindow 0 20 2).advance 5 7).advance 25 0)
        - goDiv (5 - (((mkSlidingWindow 0 20 2).advance 5 7).advance 25 0).start)
            ((((mkSlidingWindow 0 20 2).advance 5 7).advance 25 0).step))
        * ((((mkSlidingWindow 0 20 2).advance 5 7).advance 25 0).step) = 20 ∧
    (((((mkSlidingWindow 0 20 2).advance 5 7).advance 25 0).slots.length : Int) - 1)
        * ((((mkSlidingWindow 0 20 2).advance 5 7).advance 25 0).step) = 20 ∧
    ((((mkSlidingWindow 0 20 2).advance 5 7).advance 25 0).revoke 5 4).count = 3 ∧
    (((mkSlidingWindow 0 20 2).advance 5 7).advance 25 0).count = 7 :=
  ⟨Reachable.adv _ _ _ (Reachable.adv _ _ _
      (Reachable.init 0 20 2 (by decide) (by decide))),
   by decide, by decide, by decide, by decide⟩

/-- C6 amended: `Revoke(hist, delta)` is a no-op on the state — and returns
the decayed count of the unchanged state — exactly under the code's guard:
when `hist`'s slot index is negative (`hist` more than one step before
`start`), or lies after the current slot, or lies at least `slotCount + 1`
slots behind it (fully rotated out of the circular buffer).  A slot exactly
`slotCount` slots behind (age equal to the window length, the decay-helper
slot) is still revocable. -/
theorem C6_revoke_out_of_window_noop (c : SlidingWindow) (hist delta : Int)
    (h : goDiv (hist - c.start) c.step < 0 ∨
         curIdx c < goDiv (hist - c.start) c.step ∨
         (c.slots.length : Int) ≤ curIdx c - goDiv (hist - c.start) c.step) :
    (c.revokeOp hist delta).2 = c ∧ (c.revokeOp hist delta).1 = c.calculate := by
  have hno : c.revoke hist delta = c := by
    rw [revoke_eq, if_neg]
    rintro ⟨h1, h2, h3⟩
    omega
  exact ⟨hno, by show (c.revoke hist delta).calculate = c.calculate; rw [hno]⟩

/-- Witness for C6's amended statement: revoking at a future timestamp is a
no-op. -/
theorem C6_revoke_out_of_window_noop_witness :
    ((((mkSlidingWindow 0 20 2).advance 5 7).revokeOp 17 4).2
        = (mkSlidingWindow 0 20 2).advance 5 7) ∧
    (((mkSlidingWindow 0 20 2).advance 5 7).revokeOp 17 4).1
      = ((mkSlidingWindow 0 20 2).advance 5 7).calculate :=
  C6_revoke_out_of_window_noop ((mkSlidingWindow 0 20 2).advance 5 7) 17 4
    (by right; left; decide)

/-! ### Claim C7 -/

theorem goDiv_add_mul (x k b : Int) (hx : 0 ≤ x) (hk : 0 ≤ k) (hb : 0 < b) :
    goDiv (x + k * b) b = goDiv x b + k := by
  rw [goDiv_nonneg_eq _ _ (by positivity) hb.le, goDiv_nonneg_eq _ _ hx hb.le]
  exact Int.add_mul_ediv_right x k (ne_of_gt hb)

theorem goDiv_nonpos (a b : Int) (ha : a ≤ 0) (hb : 0 < b) : goDiv a b ≤ 0 := by
  have h1 : goDiv a b = -goDiv (-a) b := by
    unfold goDiv
    rw [← Int.neg_tdiv, neg_neg]
  have h2 : 0 ≤ goDiv (-a) b := goDiv_nonneg _ _ (by omega) hb.le
  omega

theorem idx_succ_ne (n C : Int) (hn : 0 ≤ n) (hC : 2 ≤ C) :
    idx (n + 1) C ≠ idx n C := by
  unfold idx goMod
  rw [Int.tmod_eq_emod (by omega) (by omega), Int.tmod_eq_emod hn (by omega)]
  intro hEq
  have e1 := Int.emod_nonneg (n + 1) (show C ≠ 0 by omega)
  have e2 := Int.emod_nonneg n (show C ≠ 0 by omega)
  have hint : (n + 1) % C = n % C := by omega
  have h1 : ((n + 1) - n) % C = ((n + 1) % C - n % C) % C := Int.sub_emod _ _ _
  rw [hint, sub_self, Int.zero_emod] at h1
  have h2 : (n + 1) - n = 1 := by ring
  rw [h2, Int.emod_eq_of_lt (by omega) (by omega)] at h1
  exact one_ne_zero h1

/-- C7 amended: if `now` is at least `(slotCount+1)*step` ahead of BOTH the
stored `now` and the anchor `start`, then Advance takes the quick-reset path:
all prior history is discarded, the target slot alone holds `delta`,
`count = delta`, and exactly `delta` is returned.  (The extra `start` bound is
forced by the counterexample below: from a reachable backwards-time state,
being `(slotCount+1)*step` ahead of the stored `now` alone does not reset.) -/
theorem C7_full_window_advance_resets (c : SlidingWindow) (now delta : Int)
    (hwf : WF c)
    (h1 : c.now + (c.slots.length : Int) * c.step ≤ now)
    (h2 : c.start + (c.slots.length : Int) * c.step ≤ now) :
    (c.advanceOp now delta).1 = delta ∧
    (c.advanceOp now delta).2.count = delta ∧
    (c.advanceOp now delta).2.slots
      = (List.replicate c.slots.length 0).set
          (idx (goDiv (now - c.start) c.step) (c.slots.length : Int)) delta ∧
    (c.advanceOp now delta).2.now = now := by
  obtain ⟨hstep, hlen⟩ := hwf
  have hstep' : (0 : Int) < c.step := by omega
  have hC : (0 : Int) < (c.slots.length : Int) := by
    exact_mod_cast (show 0 < c.slots.length by omega)
  have hC2 : (2 : Int) ≤ (c.slots.length : Int) := by exact_mod_cast hlen
  have hbase : goDiv ((c.slots.length : Int) * c.step) c.step
      = (c.slots.length : Int) := by
    have := goDiv_mul_add (c.slots.length : Int) c.step 0 hstep' hC.le le_rfl hstep'
    simpa using this
  have hn0 : (c.slots.length : Int) ≤ goDiv (now - c.start) c.step := by
    calc (c.slots.length : Int)
        = goDiv ((c.slots.length : Int) * c.step) c.step := hbase.symm
      _ ≤ goDiv (now - c.start) c.step :=
          goDiv_le_goDiv _ _ _ hstep' (by positivity) (by omega)
  have hcur : curIdx c + (c.slots.length : Int) ≤ goDiv (now - c.start) c.step := by
    simp only [curIdx]
    split
    · omega
    · by_cases hx : 0 ≤ c.now - c.start
      · have ha := goDiv_add_mul (c.now - c.start) (c.slots.length : Int) c.step
          hx hC.le hstep'
        have hmono := goDiv_le_goDiv ((c.now - c.start) + (c.slots.length : Int) * c.step)
          (now - c.start) c.step hstep' (by positivity) (by omega)
        omega
      · have hle := goDiv_nonpos (c.now - c.start) c.step (by omega) hstep'
        omega
  have hnxt : nxtIdx c now = goDiv (now - c.start) c.step := by
    simp only [nxtIdx]
    split <;> omega
  have hne : ¬ nxtIdx c now = curIdx c := by rw [hnxt]; omega
  have hCle : (c.slots.length : Int) ≤ nxtIdx c now - curIdx c := by rw [hnxt]; omega
  have hstate : c.advance now delta = { c with
      slots := (List.replicate c.slots.length 0).set
        (idx (goDiv (now - c.start) c.step) (c.slots.length : Int)) delta,
      count := delta, now := now } := by
    rw [advance_eq, if_neg hne, if_pos hCle, hnxt]
  refine ⟨?_, ?_, ?_, advance_now c now delta⟩
  · show (c.advance now delta).calculate = delta
    rw [hstate]
    simp only [SlidingWindow.calculate]
    rw [if_neg (show ¬ goDiv (now - c.start) c.step < 0 by omega)]
    have hlenrw : ((List.replicate c.slots.length (0 : Int)).set
        (idx (goDiv (now - c.start) c.step) (c.slots.length : Int)) delta).length
        = c.slots.length := by
      simp
    rw [hlenrw]
    have hne2 : idx (goDiv (now - c.start) c.step + 1) (c.slots.length : Int)
        ≠ idx (goDiv (now - c.start) c.step) (c.slots.length : Int) :=
      idx_succ_ne _ _ (by omega) hC2
    have hexp : getSlot ((List.replicate c.slots.length (0 : Int)).set
        (idx (goDiv (now - c.start) c.step) (c.slots.length : Int)) delta)
        (idx (goDiv (now - c.start) c.step + 1) (c.slots.length : Int)) = 0 := by
      unfold getSlot
      rw [getD_set_ne _ _ _ _ (fun hEq => hne2 hEq.symm), getD_replicate]
    rw [hexp]
    have hz : goDiv (0 * goMod (now - c.start) c.step) c.step = 0 := by
      rw [zero_mul]
      unfold goDiv
      exact Int.zero_tdiv c.step
    rw [hz]
    ring
  · show (c.advance now delta).count = delta
    rw [hstate]
  · show (c.advance now delta).slots = _
    rw [hstate]

/-- Witness for C7's amended statement on a fresh counter far in the past. -/
theorem C7_full_window_advance_resets_witness :
    ((mkSlidingWindow 0 3 3).advanceOp 10 5).1 = 5 ∧
    ((mkSlidingWindow 0 3 3).advanceOp 10 5).2.count = 5 :=
  ⟨(C7_full_window_advance_resets (mkSlidingWindow 0 3 3) 10 5
      (by constructor <;> decide) (by decide) (by decide)).1,
   (C7_full_window_advance_resets (mkSlidingWindow 0 3 3) 10 5
      (by constructor <;> decide) (by decide) (by decide)).2.1⟩

/-- C7 counterexample: the reachable state obtained by `Advance(0, 5)` on a
counter anchored at `start = 100` (step 10, 3 slots + decay slot) has stored
`now = 0`; the call `Advance(60, 7)` is `(slotCount+1)*step = 40` ahead of the
stored `now`, yet it does NOT reset: it returns 12 = 5 + 7 and leaves
`count = 12`, not `delta = 7` — refuting the claim for reachable
backwards-time states. -/
theorem C7_counterexample :
    Reachable ((mkSlidingWindow 100 30 3).advance 0 5) ∧
    ((mkSlidingWindow 100 30 3).advance 0 5).now
      + (((mkSlidingWindow 100 30 3).advance 0 5).slots.length : Int)
        * ((mkSlidingWindow 100 30 3).advance 0 5).step ≤ 60 ∧
    (((mkSlidingWindow 100 30 3).advance 0 5).advanceOp 60 7).1 = 12 ∧
    (((mkSlidingWindow 100 30 3).advance 0 5).advanceOp 60 7).2.count = 12 ∧
    (12 : Int) ≠ 7 :=
  ⟨Reachable.adv _ _ _ (Reachable.init 100 30 3 (by decide) (by decide)),
   by decide, by decide, by decide, by decide⟩

/-! ### Claim C8 -/

theorem sw_ext (x y : SlidingWindow) (h1 : x.start = y.start)
    (h2 : x.step = y.step) (h3 : x.slots = y.slots) (h4 : x.count = y.count)
    (h5 : x.now = y.now) : x = y := by
  cases x; cases y; simp_all

/-- C8 amended: `Advance(t1, a)` then `Advance(t2, b)` with `t1 ≤ t2` in the
same slot equals the single call `Advance(t2, a+b)` — same final state and
same returned count — PROVIDED the shared slot is at or after the state's
clamped current slot index.  (For a shared slot strictly before the current
one — reachable only through backwards timestamps — the two deltas land in
different physical slots and the final states differ; see the
counterexample.) -/
theorem C8_same_slot_advances_add (c : SlidingWindow) (t1 t2 a b : Int)
    (hwf : WF c)
    (hslot : goDiv (t2 - c.start) c.step = goDiv (t1 - c.start) c.step)
    (hge : curIdx c ≤ goDiv (t1 - c.start) c.step)
    (ht : t1 ≤ t2) :
    (c.advance t1 a).advance t2 b = c.advance t2 (a + b) ∧
    ((c.advance t1 a).advanceOp t2 b).1 = (c.advanceOp t2 (a + b)).1 := by
  obtain ⟨hstep, hlen⟩ := hwf
  have hC : (0 : Int) < (c.slots.length : Int) := by
    exact_mod_cast (show 0 < c.slots.length by omega)
  have hs0 : 0 ≤ goDiv (t1 - c.start) c.step := le_trans (curIdx_nonneg c) hge
  have hidx : idx (goDiv (t1 - c.start) c.step) (c.slots.length : Int)
      < c.slots.length := by
    have := idx_lt_toNat _ _ hs0 hC
    simpa using this
  have hn1 : nxtIdx c t1 = goDiv (t1 - c.start) c.step := by
    simp only [nxtIdx]; split <;> omega
  have hn2 : nxtIdx c t2 = goDiv (t1 - c.start) c.step := by
    simp only [nxtIdx]; rw [hslot]; split <;> omega
  have hcur1 : curIdx (c.advance t1 a) = goDiv (t1 - c.start) c.step := by
    simp only [curIdx]
    rw [advance_now, advance_start, advance_step]
    split <;> omega
  have hn2a : nxtIdx (c.advance t1 a) t2 = goDiv (t1 - c.start) c.step := by
    simp only [nxtIdx]
    rw [advance_start, advance_step, hcur1, hslot]
    split <;> omega
  have hmain : (c.advance t1 a).advance t2 b = c.advance t2 (a + b) := by
    rw [advance_eq (c.advance t1 a) t2 b, if_pos (by rw [hn2a, hcur1])]
    rw [hn2a, advance_length, advance_start, advance_step]
    rw [advance_eq c t1 a, advance_eq c t2 (a + b), hn1, hn2]
    split_ifs with h1 h2
    · apply sw_ext
      · rfl
      · rfl
      · dsimp only
        rw [List.set_set]
        congr 1
        unfold getSlot
        rw [getD_set_self _ _ _ hidx]
        ring
      · dsimp only
        ring
      · rfl
    · apply sw_ext
      · rfl
      · rfl
      · dsimp only
        rw [List.set_set]
        congr 1
        unfold getSlot
        rw [getD_set_self _ _ _ (by simpa using hidx)]
      · dsimp only
      · rfl
    · apply sw_ext
      · rfl
      · rfl
      · dsimp only
        rw [List.set_set]
        congr 1
        unfold getSlot
        rw [getD_set_self _ _ _ (by rw [expireLoop_length]; exact hidx)]
        ring
      · dsimp only
        ring
      · rfl
  refine ⟨hmain, ?_⟩
  show ((c.advance t1 a).advance t2 b).calculate = (c.advance t2 (a + b)).calculate
  rw [hmain]

/-- Witness for C8's amended statement: two same-slot advances on a fresh
counter compose to one. -/
theorem C8_same_slot_advances_add_witness :
    ((mkSlidingWindow 0 40 4).advance 12 3).advance 17 4
      = (mkSlidingWindow 0 40 4).advance 17 7 ∧
    (((mkSlidingWindow 0 40 4).advance 12 3).advanceOp 17 4).1
      = ((mkSlidingWindow 0 40 4).advanceOp 17 7).1 :=
  C8_same_slot_advances_add (mkSlidingWindow 0 40 4) 12 17 3 4
    (by constructor <;> decide) (by decide) (by decide) (by decide)

/-- C8 counterexample: in the reachable state with `now = 2` (step 1, buffer
of 4 slots), two Advances at timestamp `-5` (same slot, `t1 ≤ t2`) with deltas
3 and 4 put the deltas into two DIFFERENT physical slots (the first lands in
slot 2, the second — after `now` regresses — in slot 0), so the final state
differs from the single `Advance(-5, 7)`; the original claim fails on
reachable backwards-time states. -/
theorem C8_counterexample :
    Reachable ((mkSlidingWindow 0 3 3).advance 2 0) ∧
    goDiv ((-5) - ((mkSlidingWindow 0 3 3).advance 2 0).start)
        ((mkSlidingWindow 0 3 3).advance 2 0).step
      = goDiv ((-5) - ((mkSlidingWindow 0 3 3).advance 2 0).start)
          ((mkSlidingWindow 0 3 3).advance 2 0).step ∧
    ((-5 : Int) ≤ -5) ∧
    (((mkSlidingWindow 0 3 3).advance 2 0).advance (-5) 3).advance (-5) 4
      ≠ ((mkSlidingWindow 0 3 3).advance 2 0).advance (-5) (3 + 4) :=
  ⟨Reachable.adv _ _ _ (Reachable.init 0 3 3 (by decide) (by decide)),
   rfl, by decide, by decide⟩

/-! ### Claim C3 -/

theorem getD_range_map (f : Nat → Int) (n k : Nat) (h : k < n) :
    ((List.range n).map f).getD k 0 = f k := by
  rw [List.getD_eq_getElem?_getD, List.getElem?_map, List.getElem?_range h]
  rfl

/-- C3 counterexample: a reachable counter with `slotCount = 2` whose window
has filled (`current = slotCount`): Dump emits 3 = `slotCount + 1` entries —
it DOES report the extra decay-helper slot — refuting "at most `slotCount`
entries". -/
theorem C3_counterexample :
    Reachable ((mkSlidingWindow 0 2 2).advance 2 5) ∧
    ((mkSlidingWindow 0 2 2).advance 2 5).slots.length - 1 = 2 ∧
    (((mkSlidingWindow 0 2 2).advance 2 5).dump).2.2.1.length = 3 ∧
    ¬ (((mkSlidingWindow 0 2 2).advance 2 5).dump).2.2.1.length ≤ 2 :=
  ⟨Reachable.adv _ _ _ (Reachable.init 0 2 2 (by decide) (by decide)),
   by decide, by decide, by decide⟩

/-- C3 amended: Dump returns `deltaStep = step`, `end = now`,
`start = start + begin*step` (the anchor of the first emitted slot, with
`begin = max(0, current - slotCount)`), and `deltas` lists the slot values at
logical indices `begin .. current` in order — `min(current+1, slotCount+1)`
entries, so AT MOST `slotCount + 1` (not `slotCount`): once the window has
filled, the decay-helper slot is included. -/
theorem C3_dump_layout (c : SlidingWindow) (hwf : WF c) :
    (c.dump).1 = c.start
      + max 0 (curIdx c - ((c.slots.length : Int) - 1)) * c.step ∧
    (c.dump).2.1 = c.now ∧
    (c.dump).2.2.2 = c.step ∧
    ((c.dump).2.2.1.length : Int) = min (curIdx c + 1) (c.slots.length : Int) ∧
    (c.dump).2.2.1.length ≤ c.slots.length ∧
    (∀ k : Nat, k < (c.dump).2.2.1.length →
      (c.dump).2.2.1.getD k 0
        = getSlot c.slots
            (idx (max 0 (curIdx c - ((c.slots.length : Int) - 1)) + (k : Int))
              (c.slots.length : Int))) := by
  obtain ⟨hstep, hlen⟩ := hwf
  have hcd : c.dump = (c.start
      + (if (c.slots.length : Int) ≤ curIdx c
          then curIdx c - ((c.slots.length : Int) - 1) else 0) * c.step,
      c.now,
      (List.range ((curIdx c - (if (c.slots.length : Int) ≤ curIdx c
          then curIdx c - ((c.slots.length : Int) - 1) else 0)).toNat + 1)).map
        (fun (k : Nat) => getSlot c.slots
          (idx ((if (c.slots.length : Int) ≤ curIdx c
              then curIdx c - ((c.slots.length : Int) - 1) else 0) + (k : Int))
            (c.slots.length : Int))),
      c.step) := rfl
  have hcur := curIdx_nonneg c
  have hC2 : (2 : Int) ≤ (c.slots.length : Int) := by exact_mod_cast hlen
  have hbgn : (if (c.slots.length : Int) ≤ curIdx c
      then curIdx c - ((c.slots.length : Int) - 1) else 0)
      = max 0 (curIdx c - ((c.slots.length : Int) - 1)) := by
    split <;> omega
  rw [hcd, hbgn]
  refine ⟨rfl, rfl, rfl, ?_, ?_, ?_⟩
  · show (((List.range _).map _).length : Int) = _
    rw [List.length_map, List.length_range]
    omega
  · show ((List.range _).map _).length ≤ _
    rw [List.length_map, List.length_range]
    omega
  · intro k hk
    show ((List.range _).map _).getD k 0 = _
    rw [List.length_map, List.length_range] at hk
    rw [getD_range_map _ _ _ hk]

/-! ### Claim C2 : infrastructure -/

theorem idx_small (m Cn : Nat) (h : m < Cn) : idx (m : Int) (Cn : Int) = m := by
  unfold idx goMod
  rw [Int.tmod_eq_emod (by positivity) (by positivity),
    Int.emod_eq_of_lt (by positivity) (by exact_mod_cast h)]
  simp

theorem idx_eq_nat_mod (i C : Int) (hi : 0 ≤ i) (hC : 0 < C) :
    idx i C = i.toNat % C.toNat := by
  unfold idx goMod
  rw [Int.tmod_eq_emod hi hC.le]
  have h1 : i % C = ((i.toNat % C.toNat : Nat) : Int) := by
    rw [Int.natCast_mod, Int.toNat_of_nonneg hi, Int.toNat_of_nonneg hC.le]
  omega

theorem goDiv_eq_of_bounds (x k b : Int) (hb : 0 < b) (hk : 0 ≤ k)
    (h1 : k * b ≤ x) (h2 : x < (k + 1) * b) : goDiv x b = k := by
  have hx0 : 0 ≤ x := le_trans (by positivity) h1
  have hq := goDiv_nonneg_bounds x b hx0 hb
  have l1 : b * goDiv x b < b * (k + 1) := by
    calc b * goDiv x b ≤ x := hq.1
      _ < (k + 1) * b := h2
      _ = b * (k + 1) := by ring
  have l2 : b * k < b * (goDiv x b + 1) := by
    calc b * k = k * b := by ring
      _ ≤ x := h1
      _ < b * (goDiv x b + 1) := hq.2
  have m1 := lt_of_mul_lt_mul_left l1 hb.le
  have m2 := lt_of_mul_lt_mul_left l2 hb.le
  omega

theorem goDiv_neg_imp (x b : Int) (hb : 0 < b) (h : goDiv x b < 0) : x < 0 := by
  by_contra hx
  have := goDiv_nonneg x b (by omega) hb.le
  omega

theorem goMod_lt_right (x b : Int) (hb : 0 < b) : goMod x b < b := by
  unfold goMod
  exact Int.tmod_lt_of_pos x hb

theorem advance_fast (t : SlidingWindow) (τ δ : Int)
    (h : nxtIdx t τ = curIdx t) :
    t.advance τ δ = { t with
      slots := t.slots.set (idx (curIdx t) (t.slots.length : Int))
        (getSlot t.slots (idx (curIdx t) (t.slots.length : Int)) + δ),
      count := t.count + δ, now := τ } := by
  rw [advance_eq, if_pos h, h]

theorem advance_fast_zero (t : SlidingWindow) (τ : Int)
    (h : nxtIdx t τ = curIdx t) :
    t.advance τ 0 = { t with now := τ } := by
  rw [advance_fast t τ 0 h]
  apply sw_ext
  · rfl
  · rfl
  · dsimp only
    rw [add_zero]
    unfold getSlot
    exact set_getD_self _ _
  · dsimp only
    ring
  · rfl

theorem advance_rot_one (t : SlidingWindow) (τ δ : Int)
    (hlen : 2 ≤ t.slots.length)
    (h : nxtIdx t τ = curIdx t + 1) :
    t.advance τ δ = { t with
      slots := (t.slots.set (idx (curIdx t + 1) (t.slots.length : Int)) 0).set
        (idx (curIdx t + 1) (t.slots.length : Int))
        (getSlot (t.slots.set (idx (curIdx t + 1) (t.slots.length : Int)) 0)
          (idx (curIdx t + 1) (t.slots.length : Int)) + δ),
      count := t.count
        - getSlot t.slots (idx (curIdx t + 1) (t.slots.length : Int)) + δ,
      now := τ } := by
  have hC2 : (2 : Int) ≤ (t.slots.length : Int) := by exact_mod_cast hlen
  rw [advance_eq, if_neg (by omega), if_neg (by omega), h]
  have h1 : curIdx t + 1 - curIdx t = (1 : Int) := by ring
  rw [h1]
  rfl

theorem advance_rot_one_zero (t : SlidingWindow) (τ : Int)
    (hlen : 2 ≤ t.slots.length)
    (h : nxtIdx t τ = curIdx t + 1)
    (hz : getSlot t.slots (idx (curIdx t + 1) (t.slots.length : Int)) = 0) :
    t.advance τ 0 = { t with now := τ } := by
  have hC : (0 : Int) < (t.slots.length : Int) := by
    exact_mod_cast (show 0 < t.slots.length by omega)
  have hj : idx (curIdx t + 1) (t.slots.length : Int) < t.slots.length := by
    have := idx_lt_toNat (curIdx t + 1) (t.slots.length : Int)
      (by have := curIdx_nonneg t; omega) hC
    simpa using this
  rw [advance_rot_one t τ 0 hlen h, hz]
  apply sw_ext
  · rfl
  · rfl
  · dsimp only
    rw [add_zero]
    unfold getSlot
    rw [getD_set_self _ _ _ hj, List.set_set]
    calc t.slots.set (idx (curIdx t + 1) (t.slots.length : Int)) 0
        = t.slots.set (idx (curIdx t + 1) (t.slots.length : Int))
            (t.slots.getD (idx (curIdx t + 1) (t.slots.length : Int)) 0) := by
          rw [show t.slots.getD (idx (curIdx t + 1) (t.slots.length : Int)) 0
              = 0 from hz]
      _ = t.slots := set_getD_self _ _
  · dsimp only
    ring
  · rfl

theorem getD_mid (ds : List Int) (m k Cn : Nat) (hk : m ≤ k) :
    (ds.take m ++ List.replicate (Cn - m) (0 : Int)).getD k 0 = 0 := by
  rw [List.getD_append_right _ _ _ _ (by rw [List.length_take]; omega)]
  exact getD_replicate _ _

theorem set_mid (ds : List Int) (m Cn : Nat) (hm : m < ds.length) (hmc : m < Cn)
    (v : Int) :
    (ds.take m ++ List.replicate (Cn - m) (0 : Int)).set m v
      = (ds.take m ++ [v]) ++ List.replicate (Cn - (m + 1)) 0 := by
  rw [List.set_append, if_neg (by rw [List.length_take]; omega)]
  have h1 : m - (ds.take m).length = 0 := by rw [List.length_take]; omega
  rw [h1]
  have h2 : Cn - m = (Cn - (m + 1)) + 1 := by omega
  rw [h2, List.replicate_succ]
  show ds.take m ++ (v :: List.replicate (Cn - (m + 1)) 0) = _
  rw [List.append_assoc, List.singleton_append]

theorem take_snoc (ds : List Int) (m : Nat) (hm : m < ds.length) :
    ds.take m ++ [ds[m]] = ds.take (m + 1) := by
  rw [← List.take_concat_get ds m hm, List.concat_eq_append]

theorem sum_take_succ (ds : List Int) (m : Nat) (hm : m < ds.length) :
    (ds.take (m + 1)).sum = (ds.take m).sum + ds[m] := by
  rw [← take_snoc ds m hm, List.sum_append]
  simp

theorem loadInner_one (endT q dq : Int) (c : SlidingWindow) (d nw : Int) :
    loadInner endT q dq 1 (c, d, nw)
      = if endT ≤ nw then (c, d, endT) else (c.advance nw q, d - q, nw + dq) := by
  show loadInner endT q dq (Nat.succ 0) (c, d, nw) = _
  rw [loadInner]
  split <;> rfl

theorem loadOne_one (t : SlidingWindow) (startT endT step : Int) (m : Nat)
    (d : Int) :
    loadOne t startT endT step 1 m d
      = if endT ≤ startT + (m : Int) * step then
          t.advance endT d
        else
          (t.advance (startT + (m : Int) * step) d).advance
            (if endT ≤ startT + (m : Int) * step + step then endT
             else startT + (m : Int) * step + step) (d - d) := by
  simp only [loadOne]
  rw [show goDiv d 1 = d from Int.tdiv_one d, show goDiv step 1 = step from Int.tdiv_one step,
    show (1 : Int).toNat = 1 from rfl, loadInner_one]
  by_cases hA : endT ≤ startT + (m : Int) * step
  · rw [if_pos hA, if_pos hA]
    dsimp only
    rw [if_pos le_rfl]
  · rw [if_neg hA, if_neg hA]

theorem loadOne_step (endT step startT : Int) (ds : List Int) (Cn m : Nat)
    (t : SlidingWindow) (hstep : 1 ≤ step) (hCn : 2 ≤ Cn)
    (hlenC : ds.length ≤ Cn) (hm : m < ds.length)
    (hend : endT < startT + (ds.length : Int) * step)
    (hend2 : 2 ≤ ds.length → startT + ((ds.length : Int) - 1) * step ≤ endT)
    (hst : t.start = startT) (hsp : t.step = step) (hln : t.slots.length = Cn)
    (hslots : t.slots = ds.take m ++ List.replicate (Cn - m) (0 : Int))
    (hcount : t.count = (ds.take m).sum)
    (hnow : t.now = startT + (m : Int) * step) :
    loadOne t startT endT step 1 m ds[m]
      = ⟨startT, step, ds.take (m + 1) ++ List.replicate (Cn - (m + 1)) 0,
         (ds.take (m + 1)).sum,
         if m + 1 = ds.length then endT else startT + ((m : Int) + 1) * step⟩ := by
  have hstep0 : (0 : Int) < step := by omega
  have hm0 : (0 : Int) ≤ (m : Int) := by positivity
  have hmlen : ((m : Int) + 1) ≤ (ds.length : Int) := by exact_mod_cast hm
  have hms : goDiv ((m : Int) * step) step = (m : Int) := by
    have := goDiv_mul_add (m : Int) step 0 hstep0 hm0 le_rfl hstep0
    simpa using this
  have hcurt : curIdx t = (m : Int) := by
    simp only [curIdx]
    rw [hnow, hst, hsp]
    have he : startT + (m : Int) * step - startT = (m : Int) * step := by ring
    rw [he, hms, if_neg (by omega)]
  -- the fast-path advance that deposits ds[m] into slot m
  have hdeposit : ∀ τ : Int, nxtIdx t τ = curIdx t →
      t.advance τ ds[m] = ⟨startT, step,
        ds.take (m + 1) ++ List.replicate (Cn - (m + 1)) 0,
        (ds.take (m + 1)).sum, τ⟩ := by
    intro τ hτ
    rw [advance_fast t τ ds[m] hτ, hcurt, hln]
    apply sw_ext
    · exact hst
    · exact hsp
    · dsimp only
      rw [idx_small m Cn (by omega), hslots]
      unfold getSlot
      rw [getD_mid ds m m Cn le_rfl, zero_add, set_mid ds m Cn hm (by omega),
        take_snoc ds m hm]
    · dsimp only
      rw [hcount, sum_take_succ ds m hm]
    · rfl
  rw [loadOne_one]
  by_cases hA : endT ≤ startT + (m : Int) * step
  · -- break on entry: a single Advance(endT, ds[m])
    rw [if_pos hA]
    have hmlast : m + 1 = ds.length := by
      by_contra hne
      have h2le : 2 ≤ ds.length := by omega
      have hh := hend2 h2le
      have hmle : (m : Int) ≤ (ds.length : Int) - 2 := by
        have : ((m : Int) + 1) + 1 ≤ (ds.length : Int) := by
          exact_mod_cast (by omega : (m + 1) + 1 ≤ ds.length)
        omega
      have p1 : (m : Int) * step ≤ ((ds.length : Int) - 2) * step :=
        mul_le_mul_of_nonneg_right hmle (by omega)
      have p2 : ((ds.length : Int) - 2) * step
          = ((ds.length : Int) - 1) * step - step := by ring
      linarith
    have hnext : nxtIdx t endT = curIdx t := by
      simp only [nxtIdx]
      rw [hst, hsp, hcurt]
      have hle : goDiv (endT - startT) step ≤ (m : Int) := by
        by_cases hE : 0 ≤ endT - startT
        · have h3 := goDiv_le_goDiv (endT - startT) ((m : Int) * step) step hstep0
            hE (by omega)
          rw [hms] at h3
          exact h3
        · have := goDiv_nonpos (endT - startT) step (by omega) hstep0
          omega
      split <;> omega
    rw [hdeposit endT hnext, if_pos hmlast]
  · -- Advance(nw0, ds[m]) then Advance(min(nw0+step, endT), 0)
    rw [if_neg hA]
    have hnext0 : nxtIdx t (startT + (m : Int) * step) = curIdx t := by
      simp only [nxtIdx]
      rw [hst, hsp, hcurt]
      have he : startT + (m : Int) * step - startT = (m : Int) * step := by ring
      rw [he, hms]
      rw [if_neg (by omega)]
    rw [hdeposit (startT + (m : Int) * step) hnext0]
    set u : SlidingWindow := ⟨startT, step,
        ds.take (m + 1) ++ List.replicate (Cn - (m + 1)) 0,
        (ds.take (m + 1)).sum, startT + (m : Int) * step⟩ with hu
    have hcuru : curIdx u = (m : Int) := by
      simp only [curIdx, hu]
      have he : startT + (m : Int) * step - startT = (m : Int) * step := by ring
      rw [he, hms, if_neg (by omega)]
    have hulen : u.slots.length = Cn := by
      simp only [hu]
      rw [List.length_append, List.length_take, List.length_replicate]
      omega
    have hdd : ds[m] - ds[m] = 0 := by ring
    rw [hdd]
    by_cases hB : m + 1 = ds.length
    · -- last slot: the trailing zero advance is clamped to endT, same slot
      have hBlt : endT ≤ startT + (m : Int) * step + step := by
        have : (ds.length : Int) = (m : Int) + 1 := by exact_mod_cast hB.symm
        nlinarith [hend]
      rw [if_pos hBlt]
      have hne : nxtIdx u endT = curIdx u := by
        simp only [nxtIdx, hu]
        rw [hcuru]
        have hle : goDiv (endT - startT) step ≤ (m : Int) := by
          by_cases hE : 0 ≤ endT - startT
          · have h3 := goDiv_le_goDiv (endT - startT) ((m : Int) * step + step) step
              hstep0 hE (by omega)
            have h4 : goDiv ((m : Int) * step + step) step = (m : Int) + 1 := by
              have h5 : (m : Int) * step + step = ((m : Int) + 1) * step + 0 := by ring
              rw [h5]
              exact goDiv_mul_add ((m : Int) + 1) step 0 hstep0 (by omega) le_rfl hstep0
            rw [h4] at h3
            -- endT < startT + len*step = startT + (m+1)*step so goDiv ≤ m
            have h6 : goDiv (endT - startT) step ≠ (m : Int) + 1 := by
              intro hgd
              have h7 := (goDiv_nonneg_bounds (endT - startT) step hE hstep0).1
              rw [hgd] at h7
              have h8 : (ds.length : Int) = (m : Int) + 1 := by exact_mod_cast hB.symm
              nlinarith [hend]
            omega
          · have := goDiv_nonpos (endT - startT) step (by omega) hstep0
            omega
        split <;> omega
      rw [advance_fast_zero u endT hne, if_pos hB]
    · -- middle slot: the trailing zero advance rotates to slot m+1
      have hmid : startT + (m : Int) * step + step ≤ endT := by
        have h2le : 2 ≤ ds.length := by omega
        have hh := hend2 h2le
        have hmle : (m : Int) + 1 ≤ (ds.length : Int) - 1 := by
          have : ((m : Int) + 1) + 1 ≤ (ds.length : Int) := by
            exact_mod_cast (by omega : (m + 1) + 1 ≤ ds.length)
          omega
        have p1 : ((m : Int) + 1) * step ≤ ((ds.length : Int) - 1) * step :=
          mul_le_mul_of_nonneg_right hmle (by omega)
        nlinarith
      have hnw : (if endT ≤ startT + (m : Int) * step + step then endT
          else startT + (m : Int) * step + step) = startT + ((m : Int) + 1) * step := by
        by_cases hE : endT ≤ startT + (m : Int) * step + step
        · rw [if_pos hE]
          have : endT = startT + (m : Int) * step + step := by omega
          rw [this]; ring
        · rw [if_neg hE]; ring
      rw [hnw]
      have hne : nxtIdx u (startT + ((m : Int) + 1) * step) = curIdx u + 1 := by
        simp only [nxtIdx, hu]
        rw [hcuru]
        have he : startT + ((m : Int) + 1) * step - startT
            = ((m : Int) + 1) * step + 0 := by ring
        rw [he, goDiv_mul_add ((m : Int) + 1) step 0 hstep0 (by omega) le_rfl hstep0]
        rw [if_neg (by omega)]
      have hzl : getSlot u.slots (idx (curIdx u + 1) (u.slots.length : Int)) = 0 := by
        rw [hcuru, hulen]
        have : (m : Int) + 1 = ((m + 1 : Nat) : Int) := by push_cast; ring
        rw [this, idx_small (m + 1) Cn (by omega)]
        simp only [hu]
        unfold getSlot
        exact getD_mid ds (m + 1) (m + 1) Cn le_rfl
      rw [advance_rot_one_zero u (startT + ((m : Int) + 1) * step)
        (by rw [hulen]; omega) hne hzl]
      rw [if_neg hB]

theorem loadFrom_replay (endT step startT : Int) (ds : List Int) (Cn : Nat)
    (hstep : 1 ≤ step) (hCn : 2 ≤ Cn) (hlenC : ds.length ≤ Cn)
    (hend : endT < startT + (ds.length : Int) * step)
    (hend2 : 2 ≤ ds.length → startT + ((ds.length : Int) - 1) * step ≤ endT) :
    ∀ (n m : Nat) (t : SlidingWindow), n + m = ds.length →
      t.start = startT → t.step = step → t.slots.length = Cn →
      t.slots = ds.take m ++ List.replicate (Cn - m) (0 : Int) →
      t.count = (ds.take m).sum →
      t.now = (if m = ds.length then endT else startT + (m : Int) * step) →
      loadFrom startT endT step 1 ds n m t
        = ⟨startT, step, ds ++ List.replicate (Cn - ds.length) 0, ds.sum, endT⟩ := by
  intro n
  induction n with
  | zero =>
    intro m t hnm hst hsp hln hslots hcount hnow
    have hm : m = ds.length := by omega
    subst hm
    show t = _
    apply sw_ext
    · exact hst
    · exact hsp
    · rw [hslots, List.take_length]
    · rw [hcount, List.take_length]
    · rw [hnow, if_pos rfl]
  | succ n ih =>
    intro m t hnm hst hsp hln hslots hcount hnow
    have hm : m < ds.length := by omega
    rw [if_neg (by omega)] at hnow
    rw [loadFrom, dif_pos hm]
    have hget : ds.get ⟨m, hm⟩ = ds[m] := rfl
    rw [hget, loadOne_step endT step startT ds Cn m t hstep hCn hlenC hm hend hend2
      hst hsp hln hslots hcount hnow]
    apply ih (m + 1) _ (by omega) rfl rfl
    · show (ds.take (m + 1) ++ List.replicate (Cn - (m + 1)) (0 : Int)).length = Cn
      rw [List.length_append, List.length_take, List.length_replicate]
      omega
    · rfl
    · rfl
    · show (if m + 1 = ds.length then endT else startT + ((m : Int) + 1) * step)
        = (if m + 1 = ds.length then endT else startT + ((m + 1 : Nat) : Int) * step)
      split
      · rfl
      · push_cast
        ring

/-- The `begin` computed by Dump. -/
def dumpBgn (c : SlidingWindow) : Int :=
  if (c.slots.length : Int) ≤ curIdx c then curIdx c - ((c.slots.length : Int) - 1)
  else 0

/-- The `deltas` list produced by Dump. -/
def dumpDs (c : SlidingWindow) : List Int :=
  (List.range ((curIdx c - dumpBgn c).toNat + 1)).map
    (fun (k : Nat) => getSlot c.slots (idx (dumpBgn c + (k : Int)) (c.slots.length : Int)))

theorem dump_eq (c : SlidingWindow) :
    c.dump = (c.start + dumpBgn c * c.step, c.now, dumpDs c, c.step) := rfl

theorem segsOf_self (step : Int) (h : 1 ≤ step) : segsOf step step = 1 := by
  unfold segsOf
  have h3 : 2 * step + step = 3 * step := by ring
  rw [h3]
  have h4 : Int.fdiv (3 * step) (2 * step) = 1 := by
    rw [Int.fdiv_eq_ediv _ (by omega)]
    have h5 : Int.tdiv (3 * step) (2 * step) = 1 := by
      have := goDiv_eq_of_bounds (3 * step) 1 (2 * step) (by omega) (by omega)
        (by nlinarith) (by nlinarith)
      exact this
    rw [← Int.tdiv_eq_ediv (by positivity) (by omega), h5]
  rw [h4]
  rfl

theorem load_identical (startT endT step window : Int) (ds : List Int) (n : Nat)
    (hstep : 1 ≤ step) (hn : 1 ≤ n) (hcfg : goDiv window (n : Int) = step)
    (hlenC : ds.length ≤ n + 1) (hds : 1 ≤ ds.length)
    (hend : endT < startT + (ds.length : Int) * step)
    (hend2 : 2 ≤ ds.length → startT + ((ds.length : Int) - 1) * step ≤ endT) :
    loadSlidingWindow startT endT ds step window n
      = ⟨startT, step, ds ++ List.replicate ((n + 1) - ds.length) 0, ds.sum, endT⟩ := by
  unfold loadSlidingWindow SlidingWindow.load
  simp only [mkSlidingWindow]
  rw [hcfg, segsOf_self step hstep]
  apply loadFrom_replay endT step startT ds (n + 1) hstep (by omega) hlenC hend hend2
    ds.length 0 _ (by omega) rfl rfl
  · simp
  · rfl
  · rfl
  · show startT = if 0 = ds.length then endT else startT + ((0 : Nat) : Int) * step
    rw [if_neg (by omega)]
    push_cast
    ring

theorem sum_eq_range_sum (l : List Int) (m : Nat) (hm : m ≤ l.length)
    (hz : ∀ j : Nat, m ≤ j → j < l.length → l.getD j 0 = 0) :
    l.sum = ((List.range m).map (fun j => l.getD j 0)).sum := by
  have h1 : l.sum = ((List.range l.length).map (fun j => l.getD j 0)).sum :=
    (sum_getD_range l).symm
  rw [h1]
  have h2 : l.length = m + (l.length - m) := by omega
  rw [h2, List.range_add, List.map_append, List.sum_append]
  have h3 : (List.map (fun j => l.getD j 0)
      (List.map (fun x => m + x) (List.range (l.length - m)))).sum = 0 := by
    apply List.sum_eq_zero
    intro x hx
    simp only [List.map_map, List.mem_map, Function.comp, List.mem_range] at hx
    obtain ⟨a, ha, rfl⟩ := hx
    exact hz (m + a) (by omega) (by omega)
  rw [h3, add_zero]

theorem idx_id (i C : Int) (hi : 0 ≤ i) (hiC : i < C) : idx i C = i.toNat := by
  unfold idx goMod
  rw [Int.tmod_eq_emod hi (by omega), Int.emod_eq_of_lt hi hiC]

theorem idx_self (C : Int) (hC : 0 < C) : idx C C = 0 := by
  unfold idx goMod
  rw [Int.tmod_self]
  rfl

theorem goDiv_zero_left (b : Int) : goDiv 0 b = 0 := Int.zero_tdiv b

theorem calculate_decay (t : SlidingWindow) (q r : Int)
    (hq : goDiv (t.now - t.start) t.step = q) (h0 : ¬ q < 0)
    (hr : goMod (t.now - t.start) t.step = r) :
    t.calculate = t.count
      - goDiv (getSlot t.slots (idx (q + 1) (t.slots.length : Int)) * r) t.step := by
  simp only [SlidingWindow.calculate]
  rw [hq, hr, if_neg h0]

/-- C2 amended: Dump followed by Load into a counter with an identical window
length and slot count reproduces the stored query timestamp and the exact
queried count, PROVIDED every physical slot strictly beyond the clamped
current slot index is zero (the dump then captures the counter's whole
nonzero content).  Reachable states violating that proviso exist — the
advance fast path can store a backwards timestamp, stranding mass in slots
the Dump no longer reports — and they break the round-trip, as the
counterexample shows. -/
theorem C2_dump_load_roundtrip (c : SlidingWindow) (window : Int) (n : Nat)
    (hreach : Reachable c)
    (htail : ∀ j : Nat, j < c.slots.length → (curIdx c).toNat < j →
      c.slots.getD j 0 = 0)
    (hcfg1 : goDiv window (n : Int) = c.step)
    (hcfg2 : c.slots.length = n + 1)
    (hn1 : 1 ≤ n) :
    (loadSlidingWindow (c.dump).1 (c.dump).2.1 (c.dump).2.2.1 (c.dump).2.2.2
        window n).countOp = c.countOp ∧
    (loadSlidingWindow (c.dump).1 (c.dump).2.1 (c.dump).2.2.1 (c.dump).2.2.2
        window n).now = c.now := by
  obtain ⟨hstep, hlen2⟩ := reachable_WF c hreach
  have hcsum := reachable_count_sum c hreach
  have hstep0 : (0 : Int) < c.step := by omega
  have hC : (0 : Int) < (c.slots.length : Int) := by
    exact_mod_cast (show 0 < c.slots.length by omega)
  have hC2 : (2 : Int) ≤ (c.slots.length : Int) := by exact_mod_cast hlen2
  have hcur0 := curIdx_nonneg c
  have hbgn0 : 0 ≤ dumpBgn c := by unfold dumpBgn; split <;> omega
  have hbgncur : dumpBgn c ≤ curIdx c := by unfold dumpBgn; split <;> omega
  have hspan : curIdx c - dumpBgn c ≤ (c.slots.length : Int) - 1 := by
    unfold dumpBgn; split <;> omega
  have hdlen : ((dumpDs c).length : Int) = curIdx c - dumpBgn c + 1 := by
    unfold dumpDs
    rw [List.length_map, List.length_range]
    push_cast
    omega
  have hdlen1 : 1 ≤ (dumpDs c).length := by omega
  have hdlenC : (dumpDs c).length ≤ n + 1 := by omega
  have hxlt : c.now - c.start < (curIdx c + 1) * c.step := by
    by_cases hneg : goDiv (c.now - c.start) c.step < 0
    · have hx := goDiv_neg_imp _ _ hstep0 hneg
      have hcz : curIdx c = 0 := by simp only [curIdx]; rw [if_pos hneg]
      rw [hcz]
      calc c.now - c.start < 0 := hx
        _ < c.step := hstep0
        _ = (0 + 1) * c.step := by ring
    · have hcz : curIdx c = goDiv (c.now - c.start) c.step := by
        simp only [curIdx]; rw [if_neg hneg]
      by_cases hx : 0 ≤ c.now - c.start
      · have hb := (goDiv_nonneg_bounds (c.now - c.start) c.step hx hstep0).2
        rw [hcz]
        calc c.now - c.start < c.step * (goDiv (c.now - c.start) c.step + 1) := hb
          _ = (goDiv (c.now - c.start) c.step + 1) * c.step := by ring
      · have h0 := goDiv_nonpos (c.now - c.start) c.step (by omega) hstep0
        have hcz0 : goDiv (c.now - c.start) c.step = 0 := by omega
        rw [hcz, hcz0]
        calc c.now - c.start < 0 := by omega
          _ < c.step := hstep0
          _ = (0 + 1) * c.step := by ring
  have hxge : 1 ≤ curIdx c → curIdx c * c.step ≤ c.now - c.start := by
    intro h1c
    have hneg : ¬ goDiv (c.now - c.start) c.step < 0 := by
      intro hn2
      have : curIdx c = 0 := by simp only [curIdx]; rw [if_pos hn2]
      omega
    have hcz : curIdx c = goDiv (c.now - c.start) c.step := by
      simp only [curIdx]; rw [if_neg hneg]
    have hx : 0 ≤ c.now - c.start := by
      by_contra hxx
      have := goDiv_nonpos (c.now - c.start) c.step (by omega) hstep0
      omega
    have hb := (goDiv_nonneg_bounds (c.now - c.start) c.step hx hstep0).1
    rw [hcz]
    calc goDiv (c.now - c.start) c.step * c.step
        = c.step * goDiv (c.now - c.start) c.step := by ring
      _ ≤ c.now - c.start := hb
  have hend : c.now < (c.start + dumpBgn c * c.step)
      + ((dumpDs c).length : Int) * c.step := by
    rw [hdlen]
    have he : c.start + dumpBgn c * c.step + (curIdx c - dumpBgn c + 1) * c.step
        = c.start + (curIdx c + 1) * c.step := by ring
    rw [he]
    linarith [hxlt]
  have hend2 : 2 ≤ (dumpDs c).length → (c.start + dumpBgn c * c.step)
      + (((dumpDs c).length : Int) - 1) * c.step ≤ c.now := by
    intro h2
    have h2i : (2 : Int) ≤ ((dumpDs c).length : Int) := by exact_mod_cast h2
    have hcur1 : 1 ≤ curIdx c := by omega
    have hx := hxge hcur1
    rw [hdlen]
    have he : c.start + dumpBgn c * c.step
        + ((curIdx c - dumpBgn c + 1) - 1) * c.step
        = c.start + curIdx c * c.step := by ring
    rw [he]
    linarith
  have hT := load_identical (c.start + dumpBgn c * c.step) c.now c.step window
    (dumpDs c) n hstep hn1 hcfg1 hdlenC hdlen1 hend hend2
  rw [dump_eq]
  refine ⟨?_, ?_⟩
  swap
  · show (loadSlidingWindow (c.start + dumpBgn c * c.step) c.now (dumpDs c)
        c.step window n).now = c.now
    rw [hT]
  show (loadSlidingWindow (c.start + dumpBgn c * c.step) c.now (dumpDs c)
      c.step window n).countOp = c.countOp
  rw [SlidingWindow.countOp, SlidingWindow.countOp, hT]
  -- sum of the dumped deltas when the dump starts at slot 0
  have hsum_small : dumpBgn c = 0 → (dumpDs c).sum = c.count := by
    intro hbz
    have hm : (curIdx c).toNat + 1 ≤ c.slots.length := by omega
    rw [hcsum, sum_eq_range_sum c.slots ((curIdx c).toNat + 1) hm
      (fun j h1 h2 => htail j h2 (by omega))]
    unfold dumpDs
    rw [hbz, sub_zero]
    congr 1
    apply List.map_congr_left
    intro k hk
    simp only [List.mem_range] at hk
    have h0 : (0 : Int) + (k : Int) = (k : Int) := by ring
    rw [h0, idx_small k c.slots.length (by omega)]
    rfl
  by_cases hneg : goDiv (c.now - c.start) c.step < 0
  · -- negative current index on both sides: raw counts
    have hcz : curIdx c = 0 := by simp only [curIdx]; rw [if_pos hneg]
    have hbz : dumpBgn c = 0 := by
      unfold dumpBgn; rw [hcz, if_neg (by omega)]
    have hrawc := calculate_raw c hneg
    have hrawT : SlidingWindow.calculate ⟨c.start + dumpBgn c * c.step, c.step,
        dumpDs c ++ List.replicate ((n + 1) - (dumpDs c).length) 0,
        (dumpDs c).sum, c.now⟩ = (dumpDs c).sum := by
      apply calculate_raw
      show goDiv (c.now - (c.start + dumpBgn c * c.step)) c.step < 0
      rw [hbz]
      have he : c.now - (c.start + 0 * c.step) = c.now - c.start := by ring
      rw [he]
      exact hneg
    rw [hrawc, hrawT]
    exact hsum_small hbz
  · have hcz : curIdx c = goDiv (c.now - c.start) c.step := by
      simp only [curIdx]; rw [if_neg hneg]
    have hTlen : (dumpDs c ++ List.replicate ((n + 1) - (dumpDs c).length)
        (0 : Int)).length = n + 1 := by
      rw [List.length_append, List.length_replicate]
      omega
    by_cases hbig : (c.slots.length : Int) - 1 ≤ curIdx c
    · -- full window: the dump covers every slot once
      have hbgn : dumpBgn c = curIdx c - ((c.slots.length : Int) - 1) := by
        unfold dumpBgn; split <;> omega
      have hx : 0 ≤ c.now - c.start := by
        by_contra hxx
        have := goDiv_nonpos (c.now - c.start) c.step (by omega) hstep0
        omega
      have hr := goMod_nonneg_lt (c.now - c.start) c.step hx hstep0
      have hxsplit := goDiv_add_goMod (c.now - c.start) c.step
      have hy : c.now - (c.start + dumpBgn c * c.step)
          = ((c.slots.length : Int) - 1) * c.step
            + goMod (c.now - c.start) c.step := by
        rw [hbgn, hcz]
        linear_combination -hxsplit
      have hcalc_c := calculate_decay c (goDiv (c.now - c.start) c.step)
        (goMod (c.now - c.start) c.step) rfl hneg rfl
      have hqT : goDiv (c.now - (c.start + dumpBgn c * c.step)) c.step
          = (c.slots.length : Int) - 1 := by
        rw [hy]
        exact goDiv_mul_add ((c.slots.length : Int) - 1) c.step
          (goMod (c.now - c.start) c.step) hstep0 (by omega) hr.1 hr.2
      have hrT : goMod (c.now - (c.start + dumpBgn c * c.step)) c.step
          = goMod (c.now - c.start) c.step := by
        rw [hy]
        exact goMod_mul_add ((c.slots.length : Int) - 1) c.step
          (goMod (c.now - c.start) c.step) hstep0 (by omega) hr.1 hr.2
      have hcalc_T := calculate_decay ⟨c.start + dumpBgn c * c.step, c.step,
          dumpDs c ++ List.replicate ((n + 1) - (dumpDs c).length) 0,
          (dumpDs c).sum, c.now⟩ ((c.slots.length : Int) - 1)
          (goMod (c.now - c.start) c.step) hqT (by omega) hrT
      rw [hcalc_c, hcalc_T]
      -- the two expired slots coincide
      have hexpT : getSlot (dumpDs c ++ List.replicate ((n + 1) - (dumpDs c).length)
          (0 : Int)) (idx (((c.slots.length : Int) - 1) + 1)
            ((dumpDs c ++ List.replicate ((n + 1) - (dumpDs c).length)
              (0 : Int)).length : Int))
          = (dumpDs c).getD 0 0 := by
        rw [hTlen]
        have h1 : ((c.slots.length : Int) - 1) + 1 = ((n + 1 : Nat) : Int) := by
          push_cast
          omega
        rw [h1, idx_self _ (by positivity)]
        unfold getSlot
        exact List.getD_append _ _ _ _ (by omega)
      have hd0 : (dumpDs c).getD 0 0
          = getSlot c.slots (idx (dumpBgn c) (c.slots.length : Int)) := by
        unfold dumpDs
        rw [getD_range_map _ _ _ (by omega)]
        have h0 : dumpBgn c + ((0 : Nat) : Int) = dumpBgn c := by push_cast; ring
        rw [h0]
      have hexpC : idx (goDiv (c.now - c.start) c.step + 1) (c.slots.length : Int)
          = idx (dumpBgn c) (c.slots.length : Int) := by
        have h1 : goDiv (c.now - c.start) c.step + 1
            = dumpBgn c + (c.slots.length : Int) := by
          rw [hbgn, hcz]
          ring
        rw [h1, idx_add_self _ _ hbgn0 hC]
      rw [hexpT, hd0, hexpC]
      -- and the sums coincide (rotation argument)
      have hsum_full : (dumpDs c).sum = c.count := by
        rw [hcsum]
        unfold dumpDs
        have hrange : (curIdx c - dumpBgn c).toNat + 1 = c.slots.length := by
          omega
        rw [hrange]
        have hmap : (List.range c.slots.length).map
            (fun (k : Nat) => getSlot c.slots
              (idx (dumpBgn c + (k : Int)) (c.slots.length : Int)))
            = (List.range c.slots.length).map
              (fun (k : Nat) => c.slots.getD
                (((dumpBgn c).toNat + k) % c.slots.length) 0) := by
          apply List.map_congr_left
          intro k _
          unfold getSlot
          rw [idx_eq_nat_mod _ _ (by omega) hC]
          have h1 : (dumpBgn c + (k : Int)).toNat = (dumpBgn c).toNat + k := by
            omega
          have h2 : ((c.slots.length : Int)).toNat = c.slots.length := by omega
          rw [h1, h2]
        rw [hmap, sum_rot (fun j => c.slots.getD j 0) c.slots.length
          (dumpBgn c).toNat]
        have hmap2 : (List.range c.slots.length).map
            (fun a => c.slots.getD (a % c.slots.length) 0)
            = (List.range c.slots.length).map (fun a => c.slots.getD a 0) := by
          apply List.map_congr_left
          intro k hk
          simp only [List.mem_range] at hk
          rw [Nat.mod_eq_of_lt hk]
        rw [hmap2, sum_getD_range]
      rw [hsum_full]
    · -- partially-filled window: both expired slots are zero
      have hbz : dumpBgn c = 0 := by
        unfold dumpBgn; split <;> omega
      have hyx : c.now - (c.start + dumpBgn c * c.step) = c.now - c.start := by
        rw [hbz]; ring
      have hcalc_c := calculate_decay c (goDiv (c.now - c.start) c.step)
        (goMod (c.now - c.start) c.step) rfl hneg rfl
      have hqT : goDiv (c.now - (c.start + dumpBgn c * c.step)) c.step
          = goDiv (c.now - c.start) c.step := by rw [hyx]
      have hrT : goMod (c.now - (c.start + dumpBgn c * c.step)) c.step
          = goMod (c.now - c.start) c.step := by rw [hyx]
      have hcalc_T := calculate_decay ⟨c.start + dumpBgn c * c.step, c.step,
          dumpDs c ++ List.replicate ((n + 1) - (dumpDs c).length) 0,
          (dumpDs c).sum, c.now⟩ (goDiv (c.now - c.start) c.step)
          (goMod (c.now - c.start) c.step) hqT hneg hrT
      rw [hcalc_c, hcalc_T]
      have hcurlt : curIdx c + 1 < (c.slots.length : Int) := by omega
      have hexpC : getSlot c.slots
          (idx (goDiv (c.now - c.start) c.step + 1) (c.slots.length : Int)) = 0 := by
        rw [← hcz, idx_id _ _ (by omega) hcurlt]
        unfold getSlot
        exact htail (curIdx c + 1).toNat (by omega) (by omega)
      have hexpT : getSlot (dumpDs c ++ List.replicate
          ((n + 1) - (dumpDs c).length) (0 : Int))
          (idx (goDiv (c.now - c.start) c.step + 1)
            ((dumpDs c ++ List.replicate ((n + 1) - (dumpDs c).length)
              (0 : Int)).length : Int)) = 0 := by
        rw [hTlen, ← hcz, idx_id _ _ (by omega) (by omega)]
        unfold getSlot
        rw [List.getD_append_right _ _ _ _ (by omega)]
        exact getD_replicate _ _
      rw [hexpC, hexpT, zero_mul, goDiv_zero_left, sub_zero, sub_zero]
      exact hsum_small hbz

/-- Witness for C2's amended statement at a concrete reachable counter. -/
theorem C2_dump_load_roundtrip_witness :
    (loadSlidingWindow ((((mkSlidingWindow 0 3 3).advance 2 5).dump).1)
        ((((mkSlidingWindow 0 3 3).advance 2 5).dump).2.1)
        ((((mkSlidingWindow 0 3 3).advance 2 5).dump).2.2.1)
        ((((mkSlidingWindow 0 3 3).advance 2 5).dump).2.2.2) 3 3).countOp
      = ((mkSlidingWindow 0 3 3).advance 2 5).countOp ∧
    (loadSlidingWindow ((((mkSlidingWindow 0 3 3).advance 2 5).dump).1)
        ((((mkSlidingWindow 0 3 3).advance 2 5).dump).2.1)
        ((((mkSlidingWindow 0 3 3).advance 2 5).dump).2.2.1)
        ((((mkSlidingWindow 0 3 3).advance 2 5).dump).2.2.2) 3 3).now
      = ((mkSlidingWindow 0 3 3).advance 2 5).now :=
  C2_dump_load_roundtrip ((mkSlidingWindow 0 3 3).advance 2 5) 3 3
    (Reachable.adv _ _ _ (Reachable.init 0 3 3 (by decide) (by decide)))
    (by decide) (by decide) (by decide) (by decide)

/-- C2 counterexample: the reachable state built by `Advance(3, 12)` then
`Advance(0, 0)` (a backwards timestamp stored verbatim) holds its 12 units in
a slot that Dump — computed from the regressed `now` — no longer reports.
Dump then Load into an identically configured counter queries 0 where the
original queries 12, refuting the unconditional round-trip claim. -/
theorem C2_counterexample :
    Reachable (((mkSlidingWindow 0 3 3).advance 3 12).advance 0 0) ∧
    (loadSlidingWindow
        ((((mkSlidingWindow 0 3 3).advance 3 12).advance 0 0).dump).1
        ((((mkSlidingWindow 0 3 3).advance 3 12).advance 0 0).dump).2.1
        ((((mkSlidingWindow 0 3 3).advance 3 12).advance 0 0).dump).2.2.1
        ((((mkSlidingWindow 0 3 3).advance 3 12).advance 0 0).dump).2.2.2
        3 3).countOp = 0 ∧
    (((mkSlidingWindow 0 3 3).advance 3 12).advance 0 0).countOp = 12 ∧
    (0 : Int) ≠ 12 :=
  ⟨Reachable.adv _ _ _ (Reachable.adv _ _ _
      (Reachable.init 0 3 3 (by decide) (by decide))),
   by decide, by decide, by decide⟩

/-- Witness for C3's amended layout statement at a concrete reachable state. -/
theorem C3_dump_layout_witness :
    ((((mkSlidingWindow 0 2 2).advance 2 5).dump).2.1
      = ((mkSlidingWindow 0 2 2).advance 2 5).now) ∧
    ((((mkSlidingWindow 0 2 2).advance 2 5).dump).2.2.2
      = ((mkSlidingWindow 0 2 2).advance 2 5).step) ∧
    (((mkSlidingWindow 0 2 2).advance 2 5).dump).2.2.1.length
      ≤ ((mkSlidingWindow 0 2 2).advance 2 5).slots.length :=
  ⟨(C3_dump_layout ((mkSlidingWindow 0 2 2).advance 2 5)
      (by constructor <;> decide)).2.1,
   (C3_dump_layout ((mkSlidingWindow 0 2 2).advance 2 5)
      (by constructor <;> decide)).2.2.1,
   (C3_dump_layout ((mkSlidingWindow 0 2 2).advance 2 5)
      (by constructor <;> decide)).2.2.2.2.1⟩
